import Mathlib

/-!
Verification development for the breakpoint engine of the vscode-lua-debug
debug adapter (`src/debugger/breakpoint.cpp`).

The C++ code is shallowly embedded: the Lua VM, the guest-expression
evaluator, the path converter and the debug-info facility are external
collaborators and are modelled as explicit oracle records (`EvalCtx`,
`DebugCtx`); the mutable members of `class breakpoint` (`files_`,
`memorys_`, `fast_table_`, `functions_`) become fields of a `breakpoint`
state structure, and every member function becomes a state-passing Lean
function translated line by line from the C++.

`std::map` keyed containers are embedded as association lists with unique
keys (`getA`/`setA`); iteration order is irrelevant to every property
proved here (the only iteration, in `breakpoint::clear`, folds a
commutative decrement).  `fast_table_` (a zero-filled, on-demand grown
integer array) is a `List Int`.
-/

/-- A guest (Lua) value as far as this component observes it: the code only
asks `lua_type == LUA_TBOOLEAN`, `lua_toboolean`, and `lua_tolstring` (the
latter only on results of `tostring(...)`, which are strings).  `str` carries
the display text; `other` stands for any non-boolean, non-string value with
its conversion text. -/
inductive LuaValue where
  | boolean : Bool → LuaValue
  | str : String → LuaValue
  | other : String → LuaValue
deriving DecidableEq

/-- The `lua_tolstring` conversion applied by `evaluate_getstr` to the first
result of a successful `tostring(...)` evaluation. -/
def LuaValue.tostr : LuaValue → String
  | .boolean b => if b then "true" else "false"
  | .str s => s
  | .other s => s

/-- The external guest-expression evaluator (`evaluate(L, ar, expr, nresult)`
from `debugger/evaluate.h`): given the full expression text it either fails
(`none`) or succeeds with the list of results in push order (so the first
result, C++ stack slot `-nresult`, is the head). -/
structure EvalCtx where
  evaluate : String → Option (List LuaValue)

/-- Truthiness of an evaluation outcome as tested by `evaluate_isok`:
at least one result, and the first result has type `LUA_TBOOLEAN` with a
true value. -/
def firstBoolTrue : Option (List LuaValue) → Bool
  | none => false
  | some [] => false
  | some (v :: _) =>
    match v with
    | .boolean b => b
    | _ => false

/-- `evaluate_isok` from breakpoint.cpp: evaluate `"return " + script`; on
failure pop the error and answer false; on success answer true exactly when
there is at least one result and the first is a true boolean. -/
def evaluate_isok (ctx : EvalCtx) (script : String) : Bool :=
  match ctx.evaluate ("return " ++ script) with
  | none => false
  | some nresult =>
    match nresult with
    | [] => false
    | v :: _ =>
      match v with
      | .boolean b => b
      | _ => false

/-- `evaluate_getstr` from breakpoint.cpp: evaluate
`"return tostring(" + script + ")"`; on failure or zero results answer the
empty string, otherwise the string conversion of the first result. -/
def evaluate_getstr (ctx : EvalCtx) (script : String) : String :=
  match ctx.evaluate ("return tostring(" ++ script ++ ")") with
  | none => ""
  | some nresult =>
    match nresult with
    | [] => ""
    | v :: _ => v.tostr

/-- The search step of the `std::regex` pattern `R"(\{[^\}]*\})"` used by
`evaluate_log`: starting right after an opening brace, find the nearest
closing brace; answer the characters strictly before it (the `[^\}]*` part,
hence never containing a closing brace) and the characters after it, or
`none` when no closing brace follows (in which case the regex does not match
and the remainder of the message is literal). -/
def splitOnClose : List Char → Option (List Char × List Char)
  | [] => none
  | c :: rest =>
    if c = '\x7d' then some ([], rest)
    else
      match splitOnClose rest with
      | some (a, b) => some (c :: a, b)
      | none => none

/-- The `regex_search` loop of `evaluate_log`, one character of lookahead at
a time: literal characters are copied; at an opening brace that is followed
by a closing brace the enclosed text is evaluated through `evaluate_getstr`
and its result spliced in, and scanning resumes after the closing brace; an
opening brace with no later closing brace (no further regex match) leaves
the rest of the message literal.  `fuel` is a structural-recursion bound;
it is never exhausted when `fuel ≥ cs.length` (each step consumes at least
one character), and `evaluate_log` below supplies exactly that. -/
def evalLogChars (ctx : EvalCtx) : Nat → List Char → List Char
  | _, [] => []
  | 0, cs => cs
  | fuel + 1, c :: rest =>
    if c = '\x7b' then
      match splitOnClose rest with
      | some (inner, after) =>
        (evaluate_getstr ctx inner.asString).data ++ evalLogChars ctx fuel after
      | none => c :: rest
    else c :: evalLogChars ctx fuel rest

/-- `evaluate_log` from breakpoint.cpp: interpolate the brace segments of
`log` in order.  The C++ `try`/`catch` around the scan can only be entered
by a `std::regex` exception, which has no counterpart in this total
embedding; evaluation failures inside a segment are already handled inside
`evaluate_getstr` (they yield the empty string) and do not throw. -/
def evaluate_log (ctx : EvalCtx) (log : String) : String :=
  (evalLogChars ctx log.data.length log.data).asString

/-- A breakpoint definition as received from the protocol layer (the
rapidjson `info` value read by `bp::bp`): three optional string members. -/
structure bp_info where
  condition : Option String
  hitCondition : Option String
  logMessage : Option String
deriving DecidableEq

/-- `struct bp`: one breakpoint record. -/
structure bp where
  cond : String
  hitcond : String
  log : String
  hit : Nat
deriving DecidableEq

/-- The constructor `bp::bp(info, h)`: absent members become empty strings,
a present `logMessage` is stored with a newline appended, and the hit count
is the supplied `h`. -/
def bp.ofInfo (info : bp_info) (h : Nat) : bp where
  cond := info.condition.getD ""
  hitcond := info.hitCondition.getD ""
  log := (info.logMessage.map (fun m => m ++ "\n")).getD ""
  hit := h

/-- Association-list lookup standing in for `std::map`/hash-map `find`:
the value of the first pair with the given key. -/
def getA {α β : Type} [DecidableEq α] : List (α × β) → α → Option β
  | [], _ => none
  | p :: rest, k => if p.1 = k then some p.2 else getA rest k

/-- Association-list update standing in for `map[k] = v`: replace the value
of the first pair with the given key, or append a fresh pair. -/
def setA {α β : Type} [DecidableEq α] : List (α × β) → α → β → List (α × β)
  | [], k, v => [(k, v)]
  | p :: rest, k, v => if p.1 = k then (k, v) :: rest else p :: setA rest k v

/-- `bp_source`: the per-source table mapping line number to breakpoint. -/
abbrev bp_source := List (Nat × bp)

/-- Identifies which keyspace a `bp_source*` obtained from
`breakpoint::get_bp` lives in; a `bp_function::bp` pointer is modelled as
an `Option SourceKey` dereferenced through the current state (the C++
pointer stays valid because both maps are node-stable). -/
inductive SourceKey where
  | path : String → SourceKey
  | ref : Int → SourceKey
deriving DecidableEq

/-- `struct bp_function`: the cached binding of one guest function. -/
structure bp_function where
  clientpath : String
  sourceref : Int
  bp : Option SourceKey
deriving DecidableEq

/-- The mutable state of `class breakpoint`: the path keyspace `files_`,
the handle keyspace `memorys_`, the shared counter array `fast_table_`,
and the function cache `functions_` (its container is declared in the
header, which is not part of the sources here; per the design it is a map
from function address to binding with no eviction). -/
structure breakpoint where
  files : List (String × bp_source)
  memorys : List (Int × bp_source)
  fast_table : List Int
  functions : List (Int × bp_function)
deriving DecidableEq

/-- The `breakpoint` constructor: empty maps and an all-zero counter array
(a zero-filled array and an empty one are indistinguishable through
`ftGet`, which reads absent entries as 0). -/
def breakpoint.init : breakpoint := ⟨[], [], [], []⟩

/-- Read `fast_table_[line]`, with lines beyond the current length reading
as 0 (the C++ guards every read with a bounds check that this default
makes unnecessary to duplicate). -/
def ftGet (t : List Int) (i : Nat) : Int := (t.get? i).getD 0

/-- The growth step of `breakpoint::add`: when `line` is out of bounds,
resize to exactly `line + 1`, zero-filling the new region. -/
def ftEnsure (t : List Int) (line : Nat) : List Int :=
  if line < t.length then t else t ++ List.replicate (line + 1 - t.length) 0

/-- `fast_table_[line]++` including the preceding on-demand growth. -/
def ftInc (t : List Int) (line : Nat) : List Int :=
  let t' := ftEnsure t line
  t'.set line (ftGet t' line + 1)

/-- `fast_table_[line]--` as performed by `breakpoint::clear(bp_source&)`
(the C++ never executes it out of bounds; `List.set` is a no-op there). -/
def ftDec (t : List Int) (line : Nat) : List Int := t.set line (ftGet t line - 1)

/-- `breakpoint::get_bp(const std::string&)`: `files_[clientpath]`, which
default-constructs an empty table on first access; the possibly-extended
state is returned alongside the table contents. -/
def breakpoint.get_bp (st : breakpoint) (clientpath : String) : bp_source × breakpoint :=
  match getA st.files clientpath with
  | some t => (t, st)
  | none => ([], { st with files := st.files ++ [(clientpath, [])] })

/-- `breakpoint::get_bp(intptr_t)`: `memorys_[sourceref]`. -/
def breakpoint.get_bp_ref (st : breakpoint) (sourceref : Int) : bp_source × breakpoint :=
  match getA st.memorys sourceref with
  | some t => (t, st)
  | none => ([], { st with memorys := st.memorys ++ [(sourceref, [])] })

/-- `breakpoint::add(bp_source&, size_t, rapidjson::Value const&)`: replace
the record at an existing line keeping its hit count, or insert a fresh
record (hit count 0) and register the line in `fast_table_`.  The updated
table contents are returned for the caller to write back through its
reference. -/
def breakpoint.add_src (st : breakpoint) (bps : bp_source) (line : Nat) (bpinfo : bp_info) :
    bp_source × breakpoint :=
  match getA bps line with
  | some old => (setA bps line (bp.ofInfo bpinfo old.hit), st)
  | none =>
    (bps ++ [(line, bp.ofInfo bpinfo 0)], { st with fast_table := ftInc st.fast_table line })

/-- `breakpoint::add(const std::string&, ...)`: `add(get_bp(client_path), ...)`. -/
def breakpoint.add (st : breakpoint) (clientpath : String) (line : Nat) (bpinfo : bp_info) :
    breakpoint :=
  let r := st.get_bp clientpath
  let r2 := r.2.add_src r.1 line bpinfo
  { r2.2 with files := setA r2.2.files clientpath r2.1 }

/-- `breakpoint::add(intptr_t, ...)`: `add(get_bp(source_ref), ...)`. -/
def breakpoint.add_ref (st : breakpoint) (sourceref : Int) (line : Nat) (bpinfo : bp_info) :
    breakpoint :=
  let r := st.get_bp_ref sourceref
  let r2 := r.2.add_src r.1 line bpinfo
  { r2.2 with memorys := setA r2.2.memorys sourceref r2.1 }

/-- The `fast_table_` effect of `breakpoint::clear(bp_source&)`: one
decrement per entry of the table being cleared. -/
def clearDecs (bps : bp_source) (ft : List Int) : List Int :=
  bps.foldl (fun t pr => ftDec t pr.1) ft

/-- `breakpoint::clear(const std::string&)`: when the path has a table,
decrement `fast_table_` once per recorded line and empty the table (the
map entry itself survives, as `bps.clear()` works through a reference). -/
def breakpoint.clear_path (st : breakpoint) (client_path : String) : breakpoint :=
  match getA st.files client_path with
  | none => st
  | some bps =>
    { st with fast_table := clearDecs bps st.fast_table,
              files := setA st.files client_path [] }

/-- `breakpoint::clear(intptr_t)`: the handle-keyspace twin. -/
def breakpoint.clear_ref (st : breakpoint) (source_ref : Int) : breakpoint :=
  match getA st.memorys source_ref with
  | none => st
  | some bps =>
    { st with fast_table := clearDecs bps st.fast_table,
              memorys := setA st.memorys source_ref [] }

/-- `breakpoint::clear()`: drop both keyspaces and the counter array
(`functions_` is not cleared by the C++). -/
def breakpoint.clear (st : breakpoint) : breakpoint :=
  { st with files := [], memorys := [], fast_table := [] }

/-- Outcome of `breakpoint::has`: the pause decision, the table contents
after the hit-count side effect, and the text (with its channel) handed to
`dbg_->output`, if any. -/
structure HasResult where
  pause : Bool
  src : bp_source
  emit : Option (String × String)
deriving DecidableEq

/-- `breakpoint::has(bp_source*, size_t, lua_State*, lua::Debug*)`,
translated step by step: the `fast_table_` gate, the table lookup, the
condition check (failures count as false and suppress the hit), the hit
increment, the hit-condition check over
`"return " + std::to_string(bp.hit) + " " + bp.hitcond`, and the logpoint
branch, which emits the interpolated message on channel "stdout" and never
pauses. -/
def breakpoint.has (st : breakpoint) (src : bp_source) (line : Nat) (ctx : EvalCtx) :
    HasResult :=
  if ftGet st.fast_table line = 0 then ⟨false, src, none⟩
  else
    match getA src line with
    | none => ⟨false, src, none⟩
    | some b =>
      if b.cond ≠ "" ∧ ¬ evaluate_isok ctx b.cond = true then ⟨false, src, none⟩
      else
        let b' : bp := { b with hit := b.hit + 1 }
        let src' := setA src line b'
        if b'.hitcond ≠ "" ∧ ¬ evaluate_isok ctx (toString b'.hit ++ " " ++ b'.hitcond) = true then
          ⟨false, src', none⟩
        else if b'.log ≠ "" then ⟨false, src', some ("stdout", evaluate_log ctx b'.log)⟩
        else ⟨true, src', none⟩

/-- What the VM-facing collaborators answer during one call/return event:
`lua_getinfo(L, "f", ar)` plus `lua_topointer` give the function identity
(`none` when `lua_getinfo` fails), `lua_getinfo(L, "S", ar)` gives the raw
source descriptor (`none` when it fails), `srcRef` is the numeric value of
the descriptor pointer that `bp_function::bp_function` casts to `intptr_t`,
and `pathconvert` is `pathconvert::get` from the path-conversion
collaborator. -/
structure DebugCtx where
  funcId : Option Int
  source : Option String
  srcRef : Int
  pathconvert : String → Option String

/-- The `ar->source[0] == '@' || ar->source[0] == '='` test (an empty
descriptor reads the terminating NUL and takes the else branch). -/
def isChunkMarker (src : String) : Bool :=
  match src.data with
  | [] => false
  | c :: _ => c = '@' || c = '='

/-- The constructor `bp_function::bp_function`: with no source info the
binding stays unbound; a named/loaded chunk (`@`/`=` marker) binds through
the path converter to the path keyspace when conversion succeeds and stays
unbound when it fails; any other descriptor is treated as a numeric handle
into the handle keyspace.  `get_bp` may extend the state with a fresh empty
table, so the state is threaded through. -/
def bp_function.ofCtx (dctx : DebugCtx) (st : breakpoint) : bp_function × breakpoint :=
  match dctx.source with
  | none => (⟨"", 0, none⟩, st)
  | some src =>
    if isChunkMarker src then
      match dctx.pathconvert src with
      | some clientpath =>
        let r := st.get_bp clientpath
        (⟨clientpath, 0, some (SourceKey.path clientpath)⟩, r.2)
      | none => (⟨"", 0, none⟩, st)
    else
      let r := st.get_bp_ref dctx.srcRef
      (⟨"", dctx.srcRef, some (SourceKey.ref dctx.srcRef)⟩, r.2)

/-- `breakpoint::get_function`: fail without touching anything when the
function identity is unavailable; answer a cached binding unconditionally;
otherwise construct the binding, cache it whatever it is, and in every case
hand the binding to the caller exactly when its `bp` pointer is bound. -/
def breakpoint.get_function (st : breakpoint) (dctx : DebugCtx) :
    Option bp_function × breakpoint :=
  match dctx.funcId with
  | none => (none, st)
  | some f =>
    match getA st.functions f with
    | some func => ((if func.bp.isSome then some func else none), st)
    | none =>
      let r := bp_function.ofCtx dctx st
      let st' := { r.2 with functions := r.2.functions ++ [(f, r.1)] }
      ((if r.1.bp.isSome then some r.1 else none), st')

/-- The table a `SourceKey` currently denotes (an absent entry reads as the
empty table, matching what `operator[]` would create). -/
def stLookup (st : breakpoint) : SourceKey → bp_source
  | .path p => (getA st.files p).getD []
  | .ref r => (getA st.memorys r).getD []

/-- One protocol-layer mutation, for stating properties over arbitrary
operation sequences. -/
inductive Op where
  | add : SourceKey → Nat → bp_info → Op
  | clearSource : SourceKey → Op
  | clearAll : Op

/-- Dispatch one operation to the corresponding member function. -/
def applyOp (st : breakpoint) : Op → breakpoint
  | .add (.path p) line info => st.add p line info
  | .add (.ref r) line info => st.add_ref r line info
  | .clearSource (.path p) => st.clear_path p
  | .clearSource (.ref r) => st.clear_ref r
  | .clearAll => st.clear

/-- The state after a sequence of protocol-layer operations from a fresh
engine. -/
def applyOps (ops : List Op) : breakpoint := ops.foldl applyOp breakpoint.init

/-- Does this table currently record a breakpoint at `line`? -/
def srcHas (bps : bp_source) (line : Nat) : Bool := (getA bps line).isSome

/-- How many tables of one keyspace record a breakpoint at `line`. -/
def countIn {α : Type} [DecidableEq α] (l : List (α × bp_source)) (line : Nat) : Nat :=
  l.countP (fun pr => srcHas pr.2 line)

/-- How many `bp_source` tables across both keyspaces record a breakpoint
at `line`. -/
def countedTables (st : breakpoint) (line : Nat) : Nat :=
  countIn st.files line + countIn st.memorys line

/-- The table contents produced by `breakpoint::add(bp_source&, ...)`. -/
def addTbl (bps : bp_source) (line : Nat) (info : bp_info) : bp_source :=
  match getA bps line with
  | some old => setA bps line (bp.ofInfo info old.hit)
  | none => bps ++ [(line, bp.ofInfo info 0)]

/-- Every table of one keyspace has pairwise distinct line keys. -/
def NodupTables {α : Type} (l : List (α × bp_source)) : Prop :=
  ∀ pr ∈ l, ((pr.2 : bp_source).map Prod.fst).Nodup

/-- The data-structure invariant of `class breakpoint`: every table has
distinct line keys, and `fast_table_[line]` counts, across both keyspaces,
the tables recording a breakpoint at `line` (spec section 3). -/
def StoreInv (st : breakpoint) : Prop :=
  NodupTables st.files ∧ NodupTables st.memorys ∧
    ∀ line, ftGet st.fast_table line = (countedTables st line : Int)

/-- The scanner at its canonical fuel, as `evaluate_log` invokes it. -/
def scanLog (ctx : EvalCtx) (cs : List Char) : List Char :=
  evalLogChars ctx cs.length cs

/-! Concrete collaborators and states used to evaluate the embedded code at
specific inputs. -/

/-- An evaluator context knowing only the variable `x` with value 42:
`tostring(x)` evaluates to the string "42", everything else fails. -/
def ctxX42 : EvalCtx :=
  ⟨fun s => if s = "return tostring(x)" then some [LuaValue.str "42"] else none⟩

/-- An evaluator context on which every evaluation fails. -/
def ctxFail : EvalCtx := ⟨fun _ => none⟩

/-- An evaluator context where the guest comparison `1 >=2` is false and
`2 >=2` is true, as Lua would answer. -/
def ctxHitTwo : EvalCtx :=
  ⟨fun s =>
    if s = "return 1 >=2" then some [LuaValue.boolean false]
    else if s = "return 2 >=2" then some [LuaValue.boolean true]
    else none⟩

/-- An evaluator context where the guest condition `x>1` is false. -/
def ctxCondFalse : EvalCtx :=
  ⟨fun s => if s = "return x>1" then some [LuaValue.boolean false] else none⟩

/-- An evaluator context where the guest condition `x>1` is true. -/
def ctxCondTrue : EvalCtx :=
  ⟨fun s => if s = "return x>1" then some [LuaValue.boolean true] else none⟩

/-- State after `add("foo.lua", 5, {logMessage:"x={x}"})`. -/
def stLogX : breakpoint :=
  breakpoint.add breakpoint.init "foo.lua" 5 ⟨none, none, some "x=\x7bx\x7d"⟩

/-- State after `add("foo.lua", 5, {logMessage:"a{x}b"})`. -/
def stLogAB : breakpoint :=
  breakpoint.add breakpoint.init "foo.lua" 5 ⟨none, none, some "a\x7bx\x7db"⟩

/-- State after `add("foo.lua", 5, {condition:"x>1"})`. -/
def stCond : breakpoint :=
  breakpoint.add breakpoint.init "foo.lua" 5 ⟨some "x>1", none, none⟩

/-- State after `add("foo.lua", 5, {hitCondition:">=2"})`. -/
def stHit : breakpoint :=
  breakpoint.add breakpoint.init "foo.lua" 5 ⟨none, some ">=2", none⟩

/-- A call/return context: function at address 1, source `@x`, which the
path converter resolves to client path `m.lua`. -/
def dctxResolved : DebugCtx :=
  ⟨some 1, some "@x", 0, fun s => if s = "@x" then some "m.lua" else none⟩

/-- A call/return context where the function identity (address 7) is known
but `lua_getinfo(L, "S", ar)` fails: no source descriptor. -/
def dctxNoSource : DebugCtx := ⟨some 7, none, 0, fun _ => none⟩

/-- A function cache already holding an unbound binding for address 7. -/
def stCachedUnbound : breakpoint :=
  { breakpoint.init with functions := [(7, ⟨"", 0, none⟩)] }

/-- Two sources, a path-keyed one and a handle-keyed one, each with a plain
breakpoint at line 3. -/
def opsTwoSources : List Op :=
  [Op.add (SourceKey.path "a.lua") 3 ⟨none, none, none⟩,
   Op.add (SourceKey.ref 7) 3 ⟨none, none, none⟩]

/-- A hand-built state with a breakpoint at line 5 whose hit count is
already 2, to exhibit hit-count preservation across a replace. -/
def stHitCount2 : breakpoint :=
  ⟨[("foo.lua", [(5, ⟨"", "", "", 2⟩)])], [], [0, 0, 0, 0, 0, 1], []⟩

/-- A call/return context where `lua_getinfo(L, "f", ar)` fails: no
function identity at all. -/
def dctxNoFunc : DebugCtx := ⟨none, none, 0, fun _ => none⟩

theorem evaluate_isok_eq (ctx : EvalCtx) (script : String) :
    evaluate_isok ctx script = firstBoolTrue (ctx.evaluate ("return " ++ script)) := by
  unfold evaluate_isok firstBoolTrue
  rcases ctx.evaluate ("return " ++ script) with _ | ⟨_ | ⟨v, rs⟩⟩ <;> rfl

/-! ## Association-list lemmas -/

theorem getA_setA_self {α β : Type} [DecidableEq α] (l : List (α × β)) (k : α) (v : β) :
    getA (setA l k v) k = some v := by
  induction l with
  | nil => simp [getA, setA]
  | cons p rest ih =>
    by_cases h : p.1 = k
    · simp [setA, h, getA]
    · simp [setA, h, getA, ih]

theorem getA_setA_ne {α β : Type} [DecidableEq α] (l : List (α × β)) (k k' : α) (v : β)
    (h : k ≠ k') : getA (setA l k v) k' = getA l k' := by
  induction l with
  | nil => simp [getA, setA, h]
  | cons p rest ih =>
    by_cases hp : p.1 = k
    · have hpk' : ¬ p.1 = k' := by rw [hp]; exact h
      simp [setA, hp, getA, h, hpk']
    · have hsetA : setA (p :: rest) k v = p :: setA rest k v := by
        simp [setA, hp]
      rw [hsetA]
      by_cases hp' : p.1 = k'
      · simp [getA, hp']
      · simp [getA, hp', ih]

theorem setA_of_getA_none {α β : Type} [DecidableEq α] (l : List (α × β)) (k : α) (v : β)
    (h : getA l k = none) : setA l k v = l ++ [(k, v)] := by
  induction l with
  | nil => simp [setA]
  | cons p rest ih =>
    by_cases hp : p.1 = k
    · simp [getA, hp] at h
    · simp [getA, hp] at h
      simp [setA, hp, ih h]

theorem getA_append_right {α β : Type} [DecidableEq α] (l : List (α × β)) (k : α) (v : β)
    (h : getA l k = none) : getA (l ++ [(k, v)]) k = some v := by
  induction l with
  | nil => simp [getA]
  | cons p rest ih =>
    by_cases hp : p.1 = k
    · simp [getA, hp] at h
    · simp [getA, hp] at h ⊢
      exact ih h

theorem getA_append_single {α β : Type} [DecidableEq α] (l : List (α × β)) (k j : α) (v : β) :
    getA (l ++ [(k, v)]) j =
      match getA l j with
      | some w => some w
      | none => if k = j then some v else none := by
  induction l with
  | nil => simp [getA]
  | cons p rest ih =>
    by_cases hp : p.1 = j
    · simp [getA, hp]
    · simp [getA, hp, ih]

theorem getA_some_mem {α β : Type} [DecidableEq α] (l : List (α × β)) (k : α) (v : β)
    (h : getA l k = some v) : (k, v) ∈ l := by
  induction l with
  | nil => simp [getA] at h
  | cons p rest ih =>
    by_cases hp : p.1 = k
    · simp only [getA, hp, if_true, Option.some.injEq] at h
      exact List.mem_cons.mpr (Or.inl (by cases p; simp_all))
    · simp [getA, hp] at h
      exact List.mem_cons_of_mem _ (ih h)

theorem getA_isSome_of_mem {α β : Type} [DecidableEq α] (l : List (α × β)) (k : α) (v : β)
    (h : (k, v) ∈ l) : (getA l k).isSome := by
  induction l with
  | nil => simp at h
  | cons p rest ih =>
    rcases List.mem_cons.mp h with h1 | h2
    · simp [getA, ← h1]
    · by_cases hp : p.1 = k
      · simp [getA, hp]
      · simp [getA, hp]
        exact ih h2

theorem getA_none_iff {α β : Type} [DecidableEq α] (l : List (α × β)) (k : α) :
    getA l k = none ↔ k ∉ l.map Prod.fst := by
  induction l with
  | nil => simp [getA]
  | cons p rest ih =>
    by_cases hp : p.1 = k
    · simp [getA, hp]
    · simp only [getA, hp, if_false, List.map_cons, List.mem_cons]
      rw [ih]
      constructor
      · intro hh h2
        rcases h2 with h2 | h2
        · exact hp h2.symm
        · exact hh h2
      · intro hh h2
        exact hh (Or.inr h2)

theorem mem_setA {α β : Type} [DecidableEq α] (l : List (α × β)) (k : α) (v : β) (q : α × β)
    (h : q ∈ setA l k v) : q ∈ l ∨ q = (k, v) := by
  induction l with
  | nil => simp [setA] at h; tauto
  | cons p rest ih =>
    by_cases hp : p.1 = k
    · simp [setA, hp] at h
      rcases h with h | h
      · right; simp [h]
      · left; exact List.mem_cons_of_mem _ h
    · simp [setA, hp] at h
      rcases h with h | h
      · left; simp [h]
      · rcases ih h with h2 | h2
        · left; exact List.mem_cons_of_mem _ h2
        · right; exact h2

theorem map_fst_setA {α β : Type} [DecidableEq α] (l : List (α × β)) (k : α) (v : β) :
    (setA l k v).map Prod.fst =
      if (getA l k).isSome then l.map Prod.fst else l.map Prod.fst ++ [k] := by
  induction l with
  | nil => simp [setA, getA]
  | cons p rest ih =>
    by_cases hp : p.1 = k
    · simp [setA, hp, getA]
    · simp [setA, hp, getA, ih]
      by_cases hk : (getA rest k).isSome <;> simp [hk]

theorem countP_setA {α β : Type} [DecidableEq α] (l : List (α × β)) (k : α) (v : β)
    (q : β → Bool) :
    ((setA l k v).countP (fun pr => q pr.2) : Int) =
      (l.countP (fun pr => q pr.2) : Int) + (if q v then 1 else 0) -
        (match getA l k with
         | some w => if q w then 1 else 0
         | none => 0) := by
  induction l with
  | nil => simp [setA, getA, List.countP_cons]
  | cons p rest ih =>
    by_cases hp : p.1 = k
    · simp only [setA, hp, if_true, getA, List.countP_cons]
      push_cast
      by_cases hv : q v <;> by_cases hw : q p.2 <;> simp [hv, hw]
    · simp only [setA, hp, if_false, getA, List.countP_cons]
      push_cast
      push_cast at ih
      by_cases hw : q p.2 <;> simp [hw] <;> rcases h : getA rest k with _ | w <;>
        simp [h] at ih ⊢ <;> omega

/-! ## Fast-table lemmas -/

theorem ftGet_nil (i : Nat) : ftGet [] i = 0 := rfl

theorem ftGet_out_of_range (t : List Int) (i : Nat) (h : t.length ≤ i) : ftGet t i = 0 := by
  induction t generalizing i with
  | nil => rfl
  | cons a rest ih =>
    cases i with
    | zero => simp at h
    | succ j => exact ih j (Nat.le_of_succ_le_succ h)

theorem lt_length_of_ftGet_ne_zero (t : List Int) (i : Nat) (h : ftGet t i ≠ 0) :
    i < t.length := by
  by_contra hc
  exact h (ftGet_out_of_range t i (Nat.le_of_not_lt hc))

theorem ftGet_set_self (t : List Int) (i : Nat) (v : Int) (h : i < t.length) :
    ftGet (t.set i v) i = v := by
  induction t generalizing i with
  | nil => simp at h
  | cons a rest ih =>
    cases i with
    | zero => rfl
    | succ j => exact ih j (Nat.lt_of_succ_lt_succ h)

theorem ftGet_set_ne (t : List Int) (i j : Nat) (v : Int) (h : j ≠ i) :
    ftGet (t.set i v) j = ftGet t j := by
  induction t generalizing i j with
  | nil => rfl
  | cons a rest ih =>
    cases i with
    | zero =>
      cases j with
      | zero => exact absurd rfl h
      | succ j' => rfl
    | succ i' =>
      cases j with
      | zero => rfl
      | succ j' => exact ih i' j' (fun hh => h (by rw [hh]))

theorem ftGet_append_replicate (t : List Int) (n : Nat) (i : Nat) :
    ftGet (t ++ List.replicate n 0) i = ftGet t i := by
  induction t generalizing i with
  | nil =>
    simp only [List.nil_append, ftGet_nil]
    induction n generalizing i with
    | zero => rfl
    | succ m ih =>
      cases i with
      | zero => rfl
      | succ j => exact ih j
  | cons a rest ih =>
    cases i with
    | zero => rfl
    | succ j => exact ih j

theorem ftEnsure_get (t : List Int) (line i : Nat) : ftGet (ftEnsure t line) i = ftGet t i := by
  unfold ftEnsure
  split
  · rfl
  · exact ftGet_append_replicate t _ i

theorem ftEnsure_length (t : List Int) (line : Nat) : line < (ftEnsure t line).length := by
  unfold ftEnsure
  split
  · assumption
  · rw [List.length_append, List.length_replicate]
    omega

theorem ftInc_get (t : List Int) (line j : Nat) :
    ftGet (ftInc t line) j = ftGet t j + (if j = line then 1 else 0) := by
  unfold ftInc
  by_cases h : j = line
  · subst h
    rw [ftGet_set_self _ _ _ (ftEnsure_length t j), ftEnsure_get]
    simp
  · rw [ftGet_set_ne _ _ _ _ h, ftEnsure_get]
    simp [h]

theorem ftDec_get (t : List Int) (line j : Nat) (h : line < t.length) :
    ftGet (ftDec t line) j = ftGet t j - (if j = line then 1 else 0) := by
  unfold ftDec
  by_cases hj : j = line
  · subst hj
    rw [ftGet_set_self _ _ _ h]
    simp
  · rw [ftGet_set_ne _ _ _ _ hj]
    simp [hj]

theorem ftDec_length (t : List Int) (line : Nat) : (ftDec t line).length = t.length := by
  unfold ftDec
  exact List.length_set t line _

theorem clearDecs_get (bps : bp_source) (ft : List Int)
    (hb : ∀ pr ∈ bps, pr.1 < ft.length) (j : Nat) :
    ftGet (clearDecs bps ft) j =
      ftGet ft j - (bps.countP (fun pr => decide (pr.1 = j)) : Int) := by
  induction bps generalizing ft with
  | nil => simp [clearDecs]
  | cons p rest ih =>
    have hp : p.1 < ft.length := hb p (List.mem_cons_self p rest)
    have hrest : ∀ pr ∈ rest, pr.1 < (ftDec ft p.1).length := by
      intro pr hpr
      rw [ftDec_length]
      exact hb pr (List.mem_cons_of_mem _ hpr)
    show ftGet (clearDecs rest (ftDec ft p.1)) j = _
    rw [ih (ftDec ft p.1) hrest, ftDec_get ft p.1 j hp, List.countP_cons]
    by_cases hj : j = p.1
    · subst hj
      simp
      ring
    · have hpj : ¬ p.1 = j := fun hh => hj hh.symm
      simp [hpj, hj]

theorem clearDecs_length (bps : bp_source) (ft : List Int) :
    (clearDecs bps ft).length = ft.length := by
  induction bps generalizing ft with
  | nil => rfl
  | cons p rest ih =>
    show (clearDecs rest (ftDec ft p.1)).length = _
    rw [ih, ftDec_length]

/-- With distinct line keys, the per-line occurrence count of a table
collapses to a membership indicator. -/
theorem countP_fst_eq_indicator (bps : bp_source) (j : Nat)
    (hnd : (bps.map Prod.fst).Nodup) :
    (bps.countP (fun pr => decide (pr.1 = j))) = if srcHas bps j then 1 else 0 := by
  induction bps with
  | nil => simp [srcHas, getA]
  | cons p rest ih =>
    simp only [List.map_cons, List.nodup_cons] at hnd
    rw [List.countP_cons]
    by_cases hj : p.1 = j
    · subst hj
      have hz : rest.countP (fun pr => decide (pr.1 = p.1)) = 0 := by
        rw [List.countP_eq_zero]
        intro pr hpr
        simp only [decide_eq_true_eq]
        intro hc
        exact hnd.1 (hc ▸ (List.mem_map_of_mem Prod.fst hpr))
      simp [hz, srcHas, getA]
    · rw [ih hnd.2]
      simp only [hj, decide_eq_false, if_false]
      have : srcHas (p :: rest) j = srcHas rest j := by
        simp [srcHas, getA, hj]
      rw [this]
      simp

/-! ## Invariant machinery: the fast-table counting invariant -/

theorem setA_append_last {α β : Type} [DecidableEq α] (l : List (α × β)) (k : α) (w v : β)
    (h : getA l k = none) : setA (l ++ [(k, w)]) k v = l ++ [(k, v)] := by
  induction l with
  | nil => simp [setA]
  | cons p rest ih =>
    by_cases hp : p.1 = k
    · simp [getA, hp] at h
    · simp [getA, hp] at h
      simp [setA, hp, ih h]

theorem add_files (st : breakpoint) (p : String) (line : Nat) (info : bp_info) :
    (st.add p line info).files = setA st.files p (addTbl ((getA st.files p).getD []) line info) := by
  unfold breakpoint.add breakpoint.get_bp breakpoint.add_src addTbl
  rcases h : getA st.files p with _ | bps
  · simp only [Option.getD_none, getA]
    rw [setA_append_last st.files p [] _ h]
    rw [setA_of_getA_none st.files p _ h]
  · simp only [Option.getD_some]
    rcases hb : getA bps line with _ | old <;> simp

theorem add_fast_table (st : breakpoint) (p : String) (line : Nat) (info : bp_info) :
    (st.add p line info).fast_table =
      if srcHas ((getA st.files p).getD []) line then st.fast_table
      else ftInc st.fast_table line := by
  rcases h : getA st.files p with _ | bps
  · simp [breakpoint.add, breakpoint.get_bp, breakpoint.add_src, h, srcHas, getA]
  · rcases hb : getA bps line with _ | old <;>
      simp [breakpoint.add, breakpoint.get_bp, breakpoint.add_src, h, hb, srcHas]

theorem add_memorys (st : breakpoint) (p : String) (line : Nat) (info : bp_info) :
    (st.add p line info).memorys = st.memorys := by
  rcases h : getA st.files p with _ | bps
  · simp [breakpoint.add, breakpoint.get_bp, breakpoint.add_src, h, getA]
  · rcases hb : getA bps line with _ | old <;>
      simp [breakpoint.add, breakpoint.get_bp, breakpoint.add_src, h, hb]

theorem add_functions (st : breakpoint) (p : String) (line : Nat) (info : bp_info) :
    (st.add p line info).functions = st.functions := by
  rcases h : getA st.files p with _ | bps
  · simp [breakpoint.add, breakpoint.get_bp, breakpoint.add_src, h, getA]
  · rcases hb : getA bps line with _ | old <;>
      simp [breakpoint.add, breakpoint.get_bp, breakpoint.add_src, h, hb]

theorem add_ref_memorys (st : breakpoint) (r : Int) (line : Nat) (info : bp_info) :
    (st.add_ref r line info).memorys =
      setA st.memorys r (addTbl ((getA st.memorys r).getD []) line info) := by
  unfold breakpoint.add_ref breakpoint.get_bp_ref breakpoint.add_src addTbl
  rcases h : getA st.memorys r with _ | bps
  · simp only [Option.getD_none, getA]
    rw [setA_append_last st.memorys r [] _ h]
    rw [setA_of_getA_none st.memorys r _ h]
  · simp only [Option.getD_some]
    rcases hb : getA bps line with _ | old <;> simp

theorem add_ref_fast_table (st : breakpoint) (r : Int) (line : Nat) (info : bp_info) :
    (st.add_ref r line info).fast_table =
      if srcHas ((getA st.memorys r).getD []) line then st.fast_table
      else ftInc st.fast_table line := by
  rcases h : getA st.memorys r with _ | bps
  · simp [breakpoint.add_ref, breakpoint.get_bp_ref, breakpoint.add_src, h, srcHas, getA]
  · rcases hb : getA bps line with _ | old <;>
      simp [breakpoint.add_ref, breakpoint.get_bp_ref, breakpoint.add_src, h, hb, srcHas]

theorem add_ref_files (st : breakpoint) (r : Int) (line : Nat) (info : bp_info) :
    (st.add_ref r line info).files = st.files := by
  rcases h : getA st.memorys r with _ | bps
  · simp [breakpoint.add_ref, breakpoint.get_bp_ref, breakpoint.add_src, h, getA]
  · rcases hb : getA bps line with _ | old <;>
      simp [breakpoint.add_ref, breakpoint.get_bp_ref, breakpoint.add_src, h, hb]

theorem add_ref_functions (st : breakpoint) (r : Int) (line : Nat) (info : bp_info) :
    (st.add_ref r line info).functions = st.functions := by
  rcases h : getA st.memorys r with _ | bps
  · simp [breakpoint.add_ref, breakpoint.get_bp_ref, breakpoint.add_src, h, getA]
  · rcases hb : getA bps line with _ | old <;>
      simp [breakpoint.add_ref, breakpoint.get_bp_ref, breakpoint.add_src, h, hb]

theorem nodup_snoc {γ : Type} (l : List γ) (a : γ) (h : l.Nodup) (ha : a ∉ l) :
    (l ++ [a]).Nodup := by
  induction l with
  | nil => simp
  | cons x rest ih =>
    rw [List.nodup_cons] at h
    rw [List.cons_append, List.nodup_cons]
    refine ⟨?_, ih h.2 (fun hm => ha (List.mem_cons_of_mem _ hm))⟩
    intro hm
    rcases List.mem_append.mp hm with hm | hm
    · exact h.1 hm
    · simp at hm
      exact ha (by simp [hm])

theorem addTbl_nodup (bps : bp_source) (line : Nat) (info : bp_info)
    (h : (bps.map Prod.fst).Nodup) : ((addTbl bps line info).map Prod.fst).Nodup := by
  unfold addTbl
  rcases hb : getA bps line with _ | old
  · simp only [List.map_append, List.map_cons, List.map_nil]
    exact nodup_snoc _ _ h ((getA_none_iff bps line).mp hb)
  · rw [map_fst_setA]
    simp [hb, h]

theorem nodupTables_setA {α : Type} [DecidableEq α] (l : List (α × bp_source)) (k : α)
    (tbl : bp_source) (h : NodupTables l) (ht : (tbl.map Prod.fst).Nodup) :
    NodupTables (setA l k tbl) := by
  intro pr hpr
  rcases mem_setA l k tbl pr hpr with h1 | h1
  · exact h pr h1
  · rw [h1]
    exact ht

theorem getD_tbl_nodup {α : Type} [DecidableEq α] (l : List (α × bp_source)) (k : α)
    (h : NodupTables l) : ((((getA l k).getD []) : bp_source).map Prod.fst).Nodup := by
  rcases hg : getA l k with _ | w
  · simp
  · rw [Option.getD_some]
    exact h (k, w) (getA_some_mem l k w hg)

theorem srcHas_addTbl (w : bp_source) (line j : Nat) (info : bp_info) :
    srcHas (addTbl w line info) j =
      (srcHas w j || (!srcHas w line && decide (j = line))) := by
  unfold addTbl
  simp only [srcHas]
  rcases hb : getA w line with _ | old
  · simp only [getA_append_single w line j (bp.ofInfo info 0)]
    rcases hwj : getA w j with _ | u
    · by_cases hjl : line = j
      · subst hjl
        simp
      · have hjl2 : ¬ j = line := fun hh => hjl (Eq.symm hh)
        simp [hjl, hjl2]
    · simp
  · by_cases hjl : j = line
    · subst hjl
      simp [getA_setA_self, hb]
    · have hne : line ≠ j := fun hh => hjl (Eq.symm hh)
      simp [getA_setA_ne w line j _ hne, hb]

theorem countIn_setA_addTbl {α : Type} [DecidableEq α] (l : List (α × bp_source)) (k : α)
    (line j : Nat) (info : bp_info) :
    (countIn (setA l k (addTbl ((getA l k).getD []) line info)) j : Int) =
      (countIn l j : Int) +
        (if srcHas ((getA l k).getD []) line then 0 else if j = line then 1 else 0) := by
  unfold countIn
  rw [countP_setA l k (addTbl ((getA l k).getD []) line info) (fun t => srcHas t j)]
  rcases hg : getA l k with _ | w
  · simp only [Option.getD_none, srcHas_addTbl]
    have hempty : srcHas ([] : bp_source) line = false := rfl
    have hemptyj : srcHas ([] : bp_source) j = false := rfl
    simp only [hempty, hemptyj]
    by_cases hj : j = line <;> simp [hj]
  · simp only [Option.getD_some, srcHas_addTbl]
    by_cases hj : j = line
    · subst hj
      have hd : decide (j = j) = true := by simp
      simp only [hd, Bool.and_true]
      by_cases hwj : srcHas w j = true
      · simp [hwj]
      · simp only [Bool.not_eq_true] at hwj
        simp [hwj]
    · have hjd : decide (j = line) = false := by simp [hj]
      simp only [hjd, Bool.and_false, Bool.or_false, hj, if_false, ite_self]
      by_cases hwj : srcHas w j = true
      · simp [hwj]
      · simp only [Bool.not_eq_true] at hwj
        simp [hwj]

theorem countIn_setA_nil {α : Type} [DecidableEq α] (l : List (α × bp_source)) (k : α)
    (bps : bp_source) (j : Nat) (hg : getA l k = some bps) :
    (countIn (setA l k []) j : Int) =
      (countIn l j : Int) - (if srcHas bps j then 1 else 0) := by
  unfold countIn
  rw [countP_setA l k [] (fun t => srcHas t j)]
  rw [hg]
  have : srcHas ([] : bp_source) j = false := rfl
  rw [this]
  rcases h : srcHas bps j <;> simp [h]

theorem countIn_pos {α : Type} [DecidableEq α] (l : List (α × bp_source)) (k : α)
    (tbl : bp_source) (j : Nat) (hm : (k, tbl) ∈ l) (hs : srcHas tbl j = true) :
    1 ≤ countIn l j := by
  unfold countIn
  have : 0 < l.countP (fun pr => srcHas pr.2 j) :=
    List.countP_pos_iff.mpr ⟨(k, tbl), hm, by simp [hs]⟩
  omega

theorem inv_init : StoreInv breakpoint.init := by
  refine ⟨?_, ?_, ?_⟩
  · intro pr hpr
    simp [breakpoint.init] at hpr
  · intro pr hpr
    simp [breakpoint.init] at hpr
  · intro line
    simp [breakpoint.init, ftGet, countedTables, countIn]

theorem inv_add (st : breakpoint) (p : String) (line : Nat) (info : bp_info)
    (h : StoreInv st) : StoreInv (st.add p line info) := by
  obtain ⟨hf, hm, hft⟩ := h
  refine ⟨?_, ?_, ?_⟩
  · rw [add_files]
    exact nodupTables_setA _ _ _ hf (addTbl_nodup _ _ _ (getD_tbl_nodup _ _ hf))
  · rw [add_memorys]
    exact hm
  · intro j
    have hftj := hft j
    unfold countedTables at hftj ⊢
    rw [add_fast_table, add_memorys, add_files]
    have hc := countIn_setA_addTbl st.files p line j info
    by_cases hs : srcHas ((getA st.files p).getD []) line = true
    · rw [if_pos hs]
      simp only [hs, if_true, add_zero] at hc
      push_cast at hftj ⊢
      omega
    · rw [if_neg hs]
      simp only [hs, if_false] at hc
      rw [ftInc_get]
      push_cast at hftj hc ⊢
      by_cases hj : j = line
      · subst hj
        simp only [if_pos rfl] at hc ⊢
        omega
      · simp only [if_neg hj] at hc ⊢
        omega

theorem inv_add_ref (st : breakpoint) (r : Int) (line : Nat) (info : bp_info)
    (h : StoreInv st) : StoreInv (st.add_ref r line info) := by
  obtain ⟨hf, hm, hft⟩ := h
  refine ⟨?_, ?_, ?_⟩
  · rw [add_ref_files]
    exact hf
  · rw [add_ref_memorys]
    exact nodupTables_setA _ _ _ hm (addTbl_nodup _ _ _ (getD_tbl_nodup _ _ hm))
  · intro j
    have hftj := hft j
    unfold countedTables at hftj ⊢
    rw [add_ref_fast_table, add_ref_files, add_ref_memorys]
    have hc := countIn_setA_addTbl st.memorys r line j info
    by_cases hs : srcHas ((getA st.memorys r).getD []) line = true
    · rw [if_pos hs]
      simp only [hs, if_true, add_zero] at hc
      push_cast at hftj ⊢
      omega
    · rw [if_neg hs]
      simp only [hs, if_false] at hc
      rw [ftInc_get]
      push_cast at hftj hc ⊢
      by_cases hj : j = line
      · subst hj
        simp only [if_pos rfl] at hc ⊢
        omega
      · simp only [if_neg hj] at hc ⊢
        omega

theorem inv_clear_path (st : breakpoint) (p : String) (h : StoreInv st) :
    StoreInv (st.clear_path p) := by
  obtain ⟨hf, hm, hft⟩ := h
  rcases hg : getA st.files p with _ | bps
  · simpa [breakpoint.clear_path, hg] using ⟨hf, hm, hft⟩
  · have hmem : (p, bps) ∈ st.files := getA_some_mem _ _ _ hg
    have hnd : (bps.map Prod.fst).Nodup := hf (p, bps) hmem
    have hbounds : ∀ pr ∈ bps, pr.1 < st.fast_table.length := by
      intro pr hpr
      have hsrc : srcHas bps pr.1 = true := by
        have := getA_isSome_of_mem bps pr.1 pr.2 (by simpa using hpr)
        simpa [srcHas] using this
      have h1 : 1 ≤ countIn st.files pr.1 := countIn_pos st.files p bps pr.1 hmem hsrc
      have h2 : ftGet st.fast_table pr.1 ≠ 0 := by
        rw [hft pr.1]
        unfold countedTables
        push_cast
        omega
      exact lt_length_of_ftGet_ne_zero _ _ h2
    have hstep : st.clear_path p =
        { st with fast_table := clearDecs bps st.fast_table,
                  files := setA st.files p [] } := by
      simp [breakpoint.clear_path, hg]
    rw [hstep]
    refine ⟨?_, ?_, ?_⟩
    · exact nodupTables_setA _ _ _ hf (by simp)
    · exact hm
    · intro j
      have hftj := hft j
      unfold countedTables at hftj ⊢
      simp only
      rw [clearDecs_get bps st.fast_table hbounds j,
        countP_fst_eq_indicator bps j hnd]
      have hc := countIn_setA_nil st.files p bps j hg
      push_cast at hftj hc ⊢
      by_cases hs : srcHas bps j = true <;> simp only [hs, if_true, if_false] at hc ⊢ <;>
        omega

theorem inv_clear_ref (st : breakpoint) (r : Int) (h : StoreInv st) :
    StoreInv (st.clear_ref r) := by
  obtain ⟨hf, hm, hft⟩ := h
  rcases hg : getA st.memorys r with _ | bps
  · simpa [breakpoint.clear_ref, hg] using ⟨hf, hm, hft⟩
  · have hmem : (r, bps) ∈ st.memorys := getA_some_mem _ _ _ hg
    have hnd : (bps.map Prod.fst).Nodup := hm (r, bps) hmem
    have hbounds : ∀ pr ∈ bps, pr.1 < st.fast_table.length := by
      intro pr hpr
      have hsrc : srcHas bps pr.1 = true := by
        have := getA_isSome_of_mem bps pr.1 pr.2 (by simpa using hpr)
        simpa [srcHas] using this
      have h1 : 1 ≤ countIn st.memorys pr.1 := countIn_pos st.memorys r bps pr.1 hmem hsrc
      have h2 : ftGet st.fast_table pr.1 ≠ 0 := by
        rw [hft pr.1]
        unfold countedTables
        push_cast
        omega
      exact lt_length_of_ftGet_ne_zero _ _ h2
    have hstep : st.clear_ref r =
        { st with fast_table := clearDecs bps st.fast_table,
                  memorys := setA st.memorys r [] } := by
      simp [breakpoint.clear_ref, hg]
    rw [hstep]
    refine ⟨?_, ?_, ?_⟩
    · exact hf
    · exact nodupTables_setA _ _ _ hm (by simp)
    · intro j
      have hftj := hft j
      unfold countedTables at hftj ⊢
      simp only
      rw [clearDecs_get bps st.fast_table hbounds j,
        countP_fst_eq_indicator bps j hnd]
      have hc := countIn_setA_nil st.memorys r bps j hg
      push_cast at hftj hc ⊢
      by_cases hs : srcHas bps j = true <;> simp only [hs, if_true, if_false] at hc ⊢ <;>
        omega

theorem inv_clear_all (st : breakpoint) : StoreInv st.clear := by
  refine ⟨?_, ?_, ?_⟩
  · intro pr hpr
    simp [breakpoint.clear] at hpr
  · intro pr hpr
    simp [breakpoint.clear] at hpr
  · intro line
    simp [breakpoint.clear, ftGet, countedTables, countIn]

theorem inv_applyOp (st : breakpoint) (op : Op) (h : StoreInv st) : StoreInv (applyOp st op) := by
  cases op with
  | add k line info =>
    cases k with
    | path p => exact inv_add st p line info h
    | ref r => exact inv_add_ref st r line info h
  | clearSource k =>
    cases k with
    | path p => exact inv_clear_path st p h
    | ref r => exact inv_clear_ref st r h
  | clearAll => exact inv_clear_all st

theorem inv_foldl (ops : List Op) (st : breakpoint) (h : StoreInv st) :
    StoreInv (ops.foldl applyOp st) := by
  induction ops generalizing st with
  | nil => exact h
  | cons op rest ih => exact ih (applyOp st op) (inv_applyOp st op h)

theorem inv_applyOps (ops : List Op) : StoreInv (applyOps ops) :=
  inv_foldl ops breakpoint.init inv_init

/-! ## Claim C5: the fast-index invariant -/

/-- Claim C5: after every sequence of add, clear(sourceKey) and clear()
operations, for every line, `fast_table_[line]` (0 beyond the current
length) equals the number of SourceBreakpointTables across both keyspaces,
summed, that currently contain a breakpoint at that line. -/
theorem C5_fast_index_invariant (ops : List Op) (line : Nat) :
    ftGet (applyOps ops).fast_table line = (countedTables (applyOps ops) line : Int) :=
  (inv_applyOps ops).2.2 line

/-! ## Claims about `breakpoint::has` -/

/-- Claim C7: with a breakpoint present at a live line, a failing or
non-boolean-true condition makes `has` answer false with the table (hence
the hit count) untouched, and the hit count is incremented by one exactly
when the condition, if present, has passed. -/
theorem C7_condition_gates_hit (st : breakpoint) (src : bp_source) (line : Nat)
    (ctx : EvalCtx) (b : bp)
    (hft : ¬ ftGet st.fast_table line = 0) (hfind : getA src line = some b) :
    (¬ (b.cond = "" ∨ evaluate_isok ctx b.cond = true) →
        breakpoint.has st src line ctx = ⟨false, src, none⟩) ∧
    ((b.cond = "" ∨ evaluate_isok ctx b.cond = true) →
        (breakpoint.has st src line ctx).src = setA src line { b with hit := b.hit + 1 }) := by
  constructor
  · intro hfail
    push_neg at hfail
    have hcond : b.cond ≠ "" ∧ ¬ evaluate_isok ctx b.cond = true :=
      ⟨hfail.1, fun hh => hfail.2 hh⟩
    simp only [breakpoint.has, hfind, if_neg hft]
    rw [if_pos hcond]
  · intro hpass
    have hcond : ¬ (b.cond ≠ "" ∧ ¬ evaluate_isok ctx b.cond = true) := by tauto
    simp only [breakpoint.has, hfind, if_neg hft, if_neg hcond]
    split
    · rfl
    · split <;> rfl

/-- Claim C8: once the condition stage has passed and a hit condition is
present, `has` evaluates exactly the expression
`"return " ++ decimal(hit + 1) ++ " " ++ hitCondition`; when that is not a
true boolean the answer is false yet the incremented hit count is kept, and
when it is true (and no log message diverts control) the answer is true. -/
theorem C8_hit_condition_text (st : breakpoint) (src : bp_source) (line : Nat)
    (ctx : EvalCtx) (b : bp)
    (hft : ¬ ftGet st.fast_table line = 0) (hfind : getA src line = some b)
    (hpass : b.cond = "" ∨ evaluate_isok ctx b.cond = true)
    (hhc : b.hitcond ≠ "") :
    (firstBoolTrue (ctx.evaluate ("return " ++ (toString (b.hit + 1) ++ " " ++ b.hitcond))) =
        false →
      breakpoint.has st src line ctx =
        ⟨false, setA src line { b with hit := b.hit + 1 }, none⟩) ∧
    (firstBoolTrue (ctx.evaluate ("return " ++ (toString (b.hit + 1) ++ " " ++ b.hitcond))) =
        true →
      b.log = "" →
      breakpoint.has st src line ctx =
        ⟨true, setA src line { b with hit := b.hit + 1 }, none⟩) := by
  have hcond : ¬ (b.cond ≠ "" ∧ ¬ evaluate_isok ctx b.cond = true) := by tauto
  have hiso := evaluate_isok_eq ctx (toString (b.hit + 1) ++ " " ++ b.hitcond)
  constructor
  · intro hfalse
    simp only [breakpoint.has, hfind, if_neg hft, if_neg hcond]
    rw [if_pos ⟨hhc, by rw [hiso, hfalse]; simp⟩]
  · intro htrue hlog
    simp only [breakpoint.has, hfind, if_neg hft, if_neg hcond]
    rw [if_neg (by rw [hiso, htrue]; tauto)]
    rw [if_neg (by simpa using hlog)]

/-! ## Claim C6: replace keeps hitCount, insert starts at 0 -/

/-- Claim C6: adding at a (source, line) that already holds a breakpoint
replaces the record by one built from the new definition carrying the old
hit count, without touching the fast index; adding at an absent line
appends a record with hit count 0; and a record built from a definition
takes its condition, hit condition and log text from that definition. -/
theorem C6_add_replace_or_insert (st : breakpoint) (p : String) (line : Nat)
    (info : bp_info) :
    (∀ b, getA ((getA st.files p).getD []) line = some b →
        getA (st.add p line info).files p =
          some (setA ((getA st.files p).getD []) line (bp.ofInfo info b.hit)) ∧
        (st.add p line info).fast_table = st.fast_table) ∧
    (getA ((getA st.files p).getD []) line = none →
        getA (st.add p line info).files p =
          some (((getA st.files p).getD []) ++ [(line, bp.ofInfo info 0)])) ∧
    (∀ h, bp.ofInfo info h =
        ⟨info.condition.getD "", info.hitCondition.getD "",
         (info.logMessage.map (fun m => m ++ "\n")).getD "", h⟩) := by
  refine ⟨?_, ?_, ?_⟩
  · intro b hb
    constructor
    · rw [add_files, getA_setA_self]
      unfold addTbl
      rw [hb]
    · rw [add_fast_table, if_pos (by simp [srcHas, hb])]
  · intro hb
    rw [add_files, getA_setA_self]
    unfold addTbl
    rw [hb]
  · intro h
    rfl

/-! ## Claim C9: clearing one source leaves others intact -/

theorem bounds_of_inv_files (st : breakpoint) (p : String) (bps : bp_source)
    (hg : getA st.files p = some bps) (hinv : StoreInv st) :
    ∀ pr ∈ bps, pr.1 < st.fast_table.length := by
  intro pr hpr
  have hmem : (p, bps) ∈ st.files := getA_some_mem _ _ _ hg
  have hsrc : srcHas bps pr.1 = true := by
    have := getA_isSome_of_mem bps pr.1 pr.2 (by simpa using hpr)
    simpa [srcHas] using this
  have h1 : 1 ≤ countIn st.files pr.1 := countIn_pos st.files p bps pr.1 hmem hsrc
  have h2 : ftGet st.fast_table pr.1 ≠ 0 := by
    rw [hinv.2.2 pr.1]
    unfold countedTables
    push_cast
    omega
  exact lt_length_of_ftGet_ne_zero _ _ h2

theorem bounds_of_inv_memorys (st : breakpoint) (r : Int) (bps : bp_source)
    (hg : getA st.memorys r = some bps) (hinv : StoreInv st) :
    ∀ pr ∈ bps, pr.1 < st.fast_table.length := by
  intro pr hpr
  have hmem : (r, bps) ∈ st.memorys := getA_some_mem _ _ _ hg
  have hsrc : srcHas bps pr.1 = true := by
    have := getA_isSome_of_mem bps pr.1 pr.2 (by simpa using hpr)
    simpa [srcHas] using this
  have h1 : 1 ≤ countIn st.memorys pr.1 := countIn_pos st.memorys r bps pr.1 hmem hsrc
  have h2 : ftGet st.fast_table pr.1 ≠ 0 := by
    rw [hinv.2.2 pr.1]
    unfold countedTables
    push_cast
    omega
  exact lt_length_of_ftGet_ne_zero _ _ h2

theorem stLookup_some_of_srcHas (st : breakpoint) (k : SourceKey) (line : Nat)
    (h : srcHas (stLookup st k) line = true) :
    (∀ p, k = SourceKey.path p → getA st.files p = some (stLookup st k)) ∧
    (∀ r, k = SourceKey.ref r → getA st.memorys r = some (stLookup st k)) := by
  constructor
  · intro p hk
    subst hk
    rcases hg : getA st.files p with _ | bps
    · rw [stLookup, hg] at h
      simp [srcHas, getA] at h
    · simp [stLookup, hg]
  · intro r hk
    subst hk
    rcases hg : getA st.memorys r with _ | bps
    · rw [stLookup, hg] at h
      simp [srcHas, getA] at h
    · simp [stLookup, hg]

theorem counted_pos_of_lookup (st : breakpoint) (k : SourceKey) (line : Nat)
    (h : srcHas (stLookup st k) line = true) : 1 ≤ countedTables st line := by
  have hk := stLookup_some_of_srcHas st k line h
  unfold countedTables
  cases k with
  | path p =>
    have := countIn_pos st.files p (stLookup st (SourceKey.path p)) line
      (getA_some_mem _ _ _ (hk.1 p rfl)) h
    omega
  | ref r =>
    have := countIn_pos st.memorys r (stLookup st (SourceKey.ref r)) line
      (getA_some_mem _ _ _ (hk.2 r rfl)) h
    omega

theorem has_congr_ft (st1 st2 : breakpoint) (src : bp_source) (line : Nat) (ctx : EvalCtx)
    (h1 : ¬ ftGet st1.fast_table line = 0) (h2 : ¬ ftGet st2.fast_table line = 0) :
    breakpoint.has st1 src line ctx = breakpoint.has st2 src line ctx := by
  unfold breakpoint.has
  rw [if_neg h1, if_neg h2]

theorem gate_ne_zero (st : breakpoint) (k : SourceKey) (line : Nat)
    (hinv : StoreInv st) (h : srcHas (stLookup st k) line = true) :
    ¬ ftGet st.fast_table line = 0 := by
  have := counted_pos_of_lookup st k line h
  rw [hinv.2.2 line]
  omega

theorem clearKey_path_fields (st : breakpoint) (p : String)
    (hg : getA st.files p = some (stLookup st (SourceKey.path p))) :
    applyOp st (Op.clearSource (SourceKey.path p)) =
      { st with files := setA st.files p [],
                fast_table := clearDecs (stLookup st (SourceKey.path p)) st.fast_table } := by
  simp [applyOp, breakpoint.clear_path, hg]

theorem clearKey_ref_fields (st : breakpoint) (r : Int)
    (hg : getA st.memorys r = some (stLookup st (SourceKey.ref r))) :
    applyOp st (Op.clearSource (SourceKey.ref r)) =
      { st with memorys := setA st.memorys r [],
                fast_table := clearDecs (stLookup st (SourceKey.ref r)) st.fast_table } := by
  simp [applyOp, breakpoint.clear_ref, hg]

/-- Claim C9: for two distinct sources A and B each holding a breakpoint at
the same line, `clear(A)` empties A's table, decrements the fast index once
per line removed from A, leaves B's table unchanged, and `has` for B at
that line gives the same outcome as before the clear. -/
theorem C9_clear_source_isolation (ops : List Op) (A B : SourceKey) (line : Nat)
    (ctx : EvalCtx) (hAB : A ≠ B)
    (hA : srcHas (stLookup (applyOps ops) A) line = true)
    (hB : srcHas (stLookup (applyOps ops) B) line = true) :
    stLookup (applyOp (applyOps ops) (Op.clearSource A)) A = [] ∧
    (∀ j, ftGet (applyOp (applyOps ops) (Op.clearSource A)).fast_table j =
        ftGet (applyOps ops).fast_table j -
          (if srcHas (stLookup (applyOps ops) A) j then 1 else 0)) ∧
    stLookup (applyOp (applyOps ops) (Op.clearSource A)) B = stLookup (applyOps ops) B ∧
    breakpoint.has (applyOp (applyOps ops) (Op.clearSource A))
        (stLookup (applyOp (applyOps ops) (Op.clearSource A)) B) line ctx =
      breakpoint.has (applyOps ops) (stLookup (applyOps ops) B) line ctx := by
  have hinv : StoreInv (applyOps ops) := inv_applyOps ops
  have hinv' : StoreInv (applyOp (applyOps ops) (Op.clearSource A)) :=
    inv_applyOp _ _ hinv
  have hgA := stLookup_some_of_srcHas (applyOps ops) A line hA
  have hfields : applyOp (applyOps ops) (Op.clearSource A) =
      { applyOps ops with
        files := (match A with
                  | SourceKey.path p => setA (applyOps ops).files p []
                  | SourceKey.ref _ => (applyOps ops).files),
        memorys := (match A with
                    | SourceKey.path _ => (applyOps ops).memorys
                    | SourceKey.ref r => setA (applyOps ops).memorys r []),
        fast_table := clearDecs (stLookup (applyOps ops) A) (applyOps ops).fast_table } := by
    cases A with
    | path p => exact clearKey_path_fields _ p (hgA.1 p rfl)
    | ref r => exact clearKey_ref_fields _ r (hgA.2 r rfl)
  have hndA : ((stLookup (applyOps ops) A).map Prod.fst).Nodup := by
    cases A with
    | path p => exact hinv.1 _ (getA_some_mem _ _ _ (hgA.1 p rfl))
    | ref r => exact hinv.2.1 _ (getA_some_mem _ _ _ (hgA.2 r rfl))
  have hboundsA : ∀ pr ∈ stLookup (applyOps ops) A, pr.1 < (applyOps ops).fast_table.length := by
    cases A with
    | path p => exact bounds_of_inv_files _ p _ (hgA.1 p rfl) hinv
    | ref r => exact bounds_of_inv_memorys _ r _ (hgA.2 r rfl) hinv
  have hBsame : stLookup (applyOp (applyOps ops) (Op.clearSource A)) B =
      stLookup (applyOps ops) B := by
    rw [hfields]
    cases A with
    | path p =>
      cases B with
      | path q =>
        have hpq : p ≠ q := fun hh => hAB (by rw [hh])
        simp [stLookup, getA_setA_ne _ _ _ _ hpq]
      | ref rq => simp [stLookup]
    | ref r =>
      cases B with
      | path q => simp [stLookup]
      | ref rq =>
        have hpq : r ≠ rq := fun hh => hAB (by rw [hh])
        simp [stLookup, getA_setA_ne _ _ _ _ hpq]
  refine ⟨?_, ?_, hBsame, ?_⟩
  · rw [hfields]
    cases A with
    | path p => simp [stLookup, getA_setA_self]
    | ref r => simp [stLookup, getA_setA_self]
  · intro j
    rw [hfields]
    simp only
    rw [clearDecs_get _ _ hboundsA j, countP_fst_eq_indicator _ j hndA]
    by_cases hs : srcHas (stLookup (applyOps ops) A) j = true <;> simp [hs]
  · have hB' : srcHas (stLookup (applyOp (applyOps ops) (Op.clearSource A)) B) line = true := by
      rw [hBsame]
      exact hB
    rw [hBsame]
    exact has_congr_ft _ _ _ _ _
      (gate_ne_zero _ B line hinv' hB')
      (gate_ne_zero _ B line hinv hB)

/-! ## Lemmas about the log-message scanner -/

theorem splitOnClose_some (cs : List Char) (a b : List Char)
    (h : splitOnClose cs = some (a, b)) :
    cs = a ++ '\x7d' :: b ∧ '\x7d' ∉ a := by
  induction cs generalizing a with
  | nil => simp [splitOnClose] at h
  | cons c rest ih =>
    unfold splitOnClose at h
    by_cases hc : c = '\x7d'
    · simp only [hc, if_true] at h
      obtain ⟨ha, hb⟩ : a = [] ∧ b = rest := by
        constructor <;> [exact (Prod.mk.injEq _ _ _ _ ▸ Option.some.inj h).1.symm;
          exact (Prod.mk.injEq _ _ _ _ ▸ Option.some.inj h).2.symm]
      subst ha
      subst hb
      simp [hc]
    · simp only [hc, if_false] at h
      rcases h2 : splitOnClose rest with _ | ⟨a', b'⟩
      · rw [h2] at h
        simp at h
      · rw [h2] at h
        simp only [Option.some.injEq, Prod.mk.injEq] at h
        obtain ⟨ha, hb⟩ := h
        subst hb
        have := ih a' h2
        rw [← ha]
        constructor
        · rw [this.1]
          simp
        · intro hm
          rcases List.mem_cons.mp hm with hm | hm
          · exact hc hm.symm
          · exact this.2 hm

theorem splitOnClose_none_iff (cs : List Char) :
    splitOnClose cs = none ↔ '\x7d' ∉ cs := by
  induction cs with
  | nil => simp [splitOnClose]
  | cons c rest ih =>
    unfold splitOnClose
    by_cases hc : c = '\x7d'
    · simp [hc]
    · simp only [hc, if_false]
      rcases h2 : splitOnClose rest with _ | pr
      · simp only [List.mem_cons]
        rw [h2] at ih
        simp only [true_iff] at ih
        constructor
        · intro _ hm
          rcases hm with hm | hm
          · exact hc hm.symm
          · exact ih hm
        · intro _
          trivial
      · rcases pr with ⟨a, b⟩
        simp only [List.mem_cons]
        rw [h2] at ih
        constructor
        · intro hh
          simp at hh
        · intro hh
          exfalso
          have hmem : '\x7d' ∈ rest := by
            have := (splitOnClose_some rest a b h2).1
            rw [this]
            simp
          exact hh (Or.inr hmem)

theorem splitOnClose_exact (a b : List Char) (ha : '\x7d' ∉ a) :
    splitOnClose (a ++ '\x7d' :: b) = some (a, b) := by
  induction a with
  | nil => simp [splitOnClose]
  | cons c rest ih =>
    have hc : c ≠ '\x7d' := fun hh => ha (by simp [hh])
    have hrest : '\x7d' ∉ rest := fun hh => ha (List.mem_cons_of_mem _ hh)
    simp only [List.cons_append]
    unfold splitOnClose
    rw [if_neg hc, ih hrest]

theorem splitOnClose_length (cs : List Char) (a b : List Char)
    (h : splitOnClose cs = some (a, b)) : b.length < cs.length := by
  have := (splitOnClose_some cs a b h).1
  rw [this]
  simp only [List.length_append, List.length_cons]
  omega

theorem splitOnClose_append (xs ys : List Char) (hy : '\x7d' ∉ ys) :
    splitOnClose (xs ++ ys) =
      match splitOnClose xs with
      | some (a, b) => some (a, b ++ ys)
      | none => none := by
  induction xs with
  | nil =>
    simp only [List.nil_append, splitOnClose]
    rw [(splitOnClose_none_iff ys).mpr hy]
  | cons c rest ih =>
    by_cases hc : c = '\x7d'
    · simp [splitOnClose, hc]
    · simp only [List.cons_append]
      unfold splitOnClose
      rw [if_neg hc, if_neg hc, ih]
      rcases h2 : splitOnClose rest with _ | ⟨a, b⟩ <;> simp

theorem evalLogChars_nil (ctx : EvalCtx) (fuel : Nat) : evalLogChars ctx fuel [] = [] :=
  evalLogChars.eq_1 ctx fuel

theorem evalLogChars_open_some (ctx : EvalCtx) (fuel : Nat) (rest inner after : List Char)
    (h : splitOnClose rest = some (inner, after)) :
    evalLogChars ctx (fuel + 1) ('\x7b' :: rest) =
      (evaluate_getstr ctx inner.asString).data ++ evalLogChars ctx fuel after := by
  rw [evalLogChars.eq_3, if_pos rfl, h]

theorem evalLogChars_open_none (ctx : EvalCtx) (fuel : Nat) (rest : List Char)
    (h : splitOnClose rest = none) :
    evalLogChars ctx (fuel + 1) ('\x7b' :: rest) = '\x7b' :: rest := by
  rw [evalLogChars.eq_3, if_pos rfl, h]

theorem evalLogChars_lit (ctx : EvalCtx) (fuel : Nat) (c : Char) (rest : List Char)
    (hc : ¬ c = '\x7b') :
    evalLogChars ctx (fuel + 1) (c :: rest) = c :: evalLogChars ctx fuel rest := by
  rw [evalLogChars.eq_3, if_neg hc]

theorem evalLogChars_no_close (ctx : EvalCtx) (fuel : Nat) (cs : List Char)
    (h : '\x7d' ∉ cs) : evalLogChars ctx fuel cs = cs := by
  induction fuel generalizing cs with
  | zero => cases cs <;> rfl
  | succ fuel ih =>
    cases cs with
    | nil => rfl
    | cons c rest =>
      have hrest : '\x7d' ∉ rest := fun hh => h (List.mem_cons_of_mem _ hh)
      by_cases hc : c = '\x7b'
      · subst hc
        rw [evalLogChars_open_none ctx fuel rest ((splitOnClose_none_iff rest).mpr hrest)]
      · rw [evalLogChars_lit ctx fuel c rest hc, ih rest hrest]

theorem evalLogChars_fuel (ctx : EvalCtx) (fuel fuel' : Nat) (cs : List Char)
    (h : cs.length ≤ fuel) (h' : cs.length ≤ fuel') :
    evalLogChars ctx fuel cs = evalLogChars ctx fuel' cs := by
  induction fuel generalizing fuel' cs with
  | zero =>
    have : cs = [] := List.length_eq_zero.mp (Nat.le_zero.mp h)
    subst this
    rw [evalLogChars_nil, evalLogChars_nil]
  | succ fuel ih =>
    cases cs with
    | nil => rw [evalLogChars_nil, evalLogChars_nil]
    | cons c rest =>
      cases fuel' with
      | zero => simp at h'
      | succ fuel2 =>
        simp only [List.length_cons] at h h'
        by_cases hc : c = '\x7b'
        · subst hc
          rcases h2 : splitOnClose rest with _ | ⟨inner, after⟩
          · rw [evalLogChars_open_none ctx fuel rest h2,
              evalLogChars_open_none ctx fuel2 rest h2]
          · have hlen : after.length < rest.length := splitOnClose_length rest inner after h2
            rw [evalLogChars_open_some ctx fuel rest inner after h2,
              evalLogChars_open_some ctx fuel2 rest inner after h2,
              ih fuel2 after (by omega) (by omega)]
        · rw [evalLogChars_lit ctx fuel c rest hc, evalLogChars_lit ctx fuel2 c rest hc,
            ih fuel2 rest (by omega) (by omega)]

theorem evaluate_log_eq_scanLog (ctx : EvalCtx) (log : String) :
    evaluate_log ctx log = (scanLog ctx log.data).asString := rfl

theorem scanLog_nil (ctx : EvalCtx) : scanLog ctx [] = [] := rfl

theorem scanLog_no_close (ctx : EvalCtx) (cs : List Char) (h : '\x7d' ∉ cs) :
    scanLog ctx cs = cs :=
  evalLogChars_no_close ctx cs.length cs h

theorem scanLog_open (ctx : EvalCtx) (rest inner after : List Char)
    (h : splitOnClose rest = some (inner, after)) :
    scanLog ctx ('\x7b' :: rest) =
      (evaluate_getstr ctx inner.asString).data ++ scanLog ctx after := by
  have hlen : after.length < rest.length := splitOnClose_length rest inner after h
  show evalLogChars ctx (rest.length + 1) ('\x7b' :: rest) = _
  rw [evalLogChars_open_some ctx rest.length rest inner after h]
  rw [evalLogChars_fuel ctx rest.length after.length after (by omega) (le_refl _)]
  rfl

theorem scanLog_open_none (ctx : EvalCtx) (rest : List Char)
    (h : splitOnClose rest = none) :
    scanLog ctx ('\x7b' :: rest) = '\x7b' :: rest := by
  show evalLogChars ctx (rest.length + 1) ('\x7b' :: rest) = _
  rw [evalLogChars_open_none ctx rest.length rest h]

theorem scanLog_literal_char (ctx : EvalCtx) (c : Char) (rest : List Char)
    (hc : ¬ c = '\x7b') : scanLog ctx (c :: rest) = c :: scanLog ctx rest := by
  show evalLogChars ctx (rest.length + 1) (c :: rest) = _
  rw [evalLogChars_lit ctx rest.length c rest hc]
  rfl

theorem scanLog_append_no_close (ctx : EvalCtx) (xs ys : List Char) (hy : '\x7d' ∉ ys) :
    scanLog ctx (xs ++ ys) = scanLog ctx xs ++ ys := by
  have main : ∀ fuel xs2, List.length xs2 ≤ fuel →
      evalLogChars ctx fuel (xs2 ++ ys) = evalLogChars ctx fuel xs2 ++ ys := by
    intro fuel
    induction fuel with
    | zero =>
      intro xs2 hlen
      have : xs2 = [] := List.length_eq_zero.mp (Nat.le_zero.mp hlen)
      subst this
      simp [evalLogChars_nil, evalLogChars_no_close ctx 0 ys hy]
    | succ fuel ih =>
      intro xs2 hlen
      cases xs2 with
      | nil =>
        simp [evalLogChars_nil, evalLogChars_no_close ctx (fuel + 1) ys hy]
      | cons c rest =>
        simp only [List.length_cons] at hlen
        by_cases hc : c = '\x7b'
        · subst hc
          simp only [List.cons_append]
          rcases h2 : splitOnClose rest with _ | ⟨inner, after⟩
          · have hsplit : splitOnClose (rest ++ ys) = none := by
              rw [splitOnClose_append rest ys hy, h2]
            rw [evalLogChars_open_none ctx fuel (rest ++ ys) hsplit,
              evalLogChars_open_none ctx fuel rest h2]
            simp
          · have hsplit : splitOnClose (rest ++ ys) = some (inner, after ++ ys) := by
              rw [splitOnClose_append rest ys hy, h2]
            have hlen2 : after.length < rest.length := splitOnClose_length rest inner after h2
            rw [evalLogChars_open_some ctx fuel (rest ++ ys) inner (after ++ ys) hsplit,
              evalLogChars_open_some ctx fuel rest inner after h2,
              ih after (by omega)]
            simp
        · simp only [List.cons_append]
          rw [evalLogChars_lit ctx fuel c (rest ++ ys) hc,
            evalLogChars_lit ctx fuel c rest hc, ih rest (by omega)]
          simp
  unfold scanLog
  rw [main ((xs ++ ys).length) xs (by simp)]
  rw [evalLogChars_fuel ctx ((xs ++ ys).length) xs.length xs (by simp) (le_refl _)]

theorem scanLog_skip_literals (ctx : EvalCtx) (pre rest : List Char)
    (hpre : '\x7b' ∉ pre) : scanLog ctx (pre ++ rest) = pre ++ scanLog ctx rest := by
  induction pre with
  | nil => simp
  | cons c pre2 ih =>
    have hc : ¬ c = '\x7b' := fun hh => hpre (by simp [hh])
    have hpre2 : '\x7b' ∉ pre2 := fun hh => hpre (List.mem_cons_of_mem _ hh)
    simp only [List.cons_append]
    rw [scanLog_literal_char ctx c (pre2 ++ rest) hc, ih hpre2]

/-! ## Claims about logpoints and brace scanning -/

theorem string_append_newline_ne_empty (m : String) : m ++ "\n" ≠ "" := by
  intro hh
  have hd := congrArg String.data hh
  have : m.data ++ ['\n'] = [] := hd
  simp at this

theorem evaluate_log_append_newline (ctx : EvalCtx) (m : String) :
    evaluate_log ctx (m ++ "\n") = evaluate_log ctx m ++ "\n" := by
  rw [evaluate_log_eq_scanLog, evaluate_log_eq_scanLog]
  show (scanLog ctx (m.data ++ ['\n'])).asString = _
  rw [scanLog_append_no_close ctx m.data ['\n'] (by decide)]
  rfl

theorem has_logpoint (st : breakpoint) (src : bp_source) (line : Nat) (ctx : EvalCtx)
    (b : bp) (hft : ¬ ftGet st.fast_table line = 0) (hfind : getA src line = some b)
    (hcond : b.cond = "") (hhc : b.hitcond = "") (hlog : b.log ≠ "") :
    breakpoint.has st src line ctx =
      ⟨false, setA src line { b with hit := b.hit + 1 },
        some ("stdout", evaluate_log ctx b.log)⟩ := by
  have hcondfail : ¬ (b.cond ≠ "" ∧ ¬ evaluate_isok ctx b.cond = true) := by simp [hcond]
  have hhc2 : ¬ (b.hitcond ≠ "" ∧
      ¬ evaluate_isok ctx (toString (b.hit + 1) ++ " " ++ b.hitcond) = true) := by
    simp [hhc]
  simp only [breakpoint.has, hfind, if_neg hft, if_neg hcondfail]
  rw [if_neg hhc2, if_pos (by simpa using hlog)]

/-- Claim C1 (amended): the record stored for a definition with a log
message carries that message with one newline appended (`bp::bp` adds it),
so when the logpoint fires, `has` emits on channel "stdout" exactly the
interpolation of the original message followed by that single newline, and
answers false. -/
theorem C1_logpoint_emits_newline (st : breakpoint) (src : bp_source) (line : Nat)
    (ctx : EvalCtx) (b : bp) (m : String)
    (hft : ¬ ftGet st.fast_table line = 0) (hfind : getA src line = some b)
    (hcond : b.cond = "") (hhc : b.hitcond = "") (hlog : b.log = m ++ "\n") :
    breakpoint.has st src line ctx =
      ⟨false, setA src line { b with hit := b.hit + 1 },
        some ("stdout", evaluate_log ctx m ++ "\n")⟩ := by
  rw [has_logpoint st src line ctx b hft hfind hcond hhc
    (by rw [hlog]; exact string_append_newline_ne_empty m)]
  rw [hlog, evaluate_log_append_newline]

/-- Claim C1 is false as stated: in the spec scenario the OutputSink
receives "x=42\n", not exactly "x=42" — this component itself appends the
newline when the breakpoint record is built. -/
theorem C1_counterexample :
    breakpoint.has stLogX ((getA stLogX.files "foo.lua").getD []) 5 ctxX42 =
      ⟨false, [(5, ⟨"", "", "x=\x7bx\x7d\n", 1⟩)], some ("stdout", "x=42\n")⟩ ∧
    ("x=42\n" : String) ≠ "x=42" := by
  constructor
  · rfl
  · decide

/-- Claim C4 (amended): an evaluation failure inside one brace segment
yields the empty string for that segment only; interpolation is not
aborted — the surrounding literal text and the remaining segments are
still processed — and the logpoint still emits and still answers false. -/
theorem C4_eval_failure_empty_segment (ctx : EvalCtx) :
    (∀ s, ctx.evaluate ("return tostring(" ++ s ++ ")") = none →
        evaluate_getstr ctx s = "") ∧
    (∀ pre s suf : List Char, '\x7b' ∉ pre → '\x7d' ∉ s →
        evaluate_log ctx (pre ++ '\x7b' :: (s ++ '\x7d' :: suf)).asString =
          pre.asString ++ (evaluate_getstr ctx s.asString ++ evaluate_log ctx suf.asString)) ∧
    (∀ st src line b, ¬ ftGet st.fast_table line = 0 → getA src line = some b →
        b.cond = "" → b.hitcond = "" → b.log ≠ "" →
        breakpoint.has st src line ctx =
          ⟨false, setA src line { b with hit := b.hit + 1 },
            some ("stdout", evaluate_log ctx b.log)⟩) := by
  refine ⟨?_, ?_, ?_⟩
  · intro s h
    unfold evaluate_getstr
    rw [h]
  · intro pre s suf hpre hs
    rw [evaluate_log_eq_scanLog, evaluate_log_eq_scanLog]
    show (scanLog ctx (pre ++ '\x7b' :: (s ++ '\x7d' :: suf))).asString = _
    rw [scanLog_skip_literals ctx pre _ hpre,
      scanLog_open ctx (s ++ '\x7d' :: suf) s suf (splitOnClose_exact s suf hs)]
    rfl
  · intro st src line b hft hfind hcond hhc hlog
    exact has_logpoint st src line ctx b hft hfind hcond hhc hlog

/-- Claim C4 is false as stated: with an evaluator that fails on every
expression, the logpoint "a‥x‥b" (braces around x) emits "ab\n" — the
failing segment contributes the empty string, the literal text after it is
still emitted, and no failure description replaces the message. -/
theorem C4_counterexample :
    evaluate_getstr ctxFail "x" = "" ∧
    evaluate_log ctxFail "a\x7bx\x7db\n" = "ab\n" ∧
    breakpoint.has stLogAB ((getA stLogAB.files "foo.lua").getD []) 5 ctxFail =
      ⟨false, [(5, ⟨"", "", "a\x7bx\x7db\n", 1⟩)], some ("stdout", "ab\n")⟩ := by
  refine ⟨rfl, rfl, rfl⟩

/-- Claim C10: an opening brace with no later closing brace is emitted
literally together with everything after it; a matched segment never
contains a closing brace — it runs from an opening brace to the nearest
following closing brace — and exactly the enclosed text is evaluated, with
scanning resuming after the closing brace. -/
theorem C10_brace_scanning (ctx : EvalCtx) :
    (∀ pre suf : List Char, '\x7d' ∉ suf →
        evaluate_log ctx (pre ++ '\x7b' :: suf).asString =
          evaluate_log ctx pre.asString ++ ('\x7b' :: suf).asString) ∧
    (∀ cs inner after : List Char, splitOnClose cs = some (inner, after) →
        '\x7d' ∉ inner ∧ cs = inner ++ '\x7d' :: after) ∧
    (∀ rest inner after : List Char, splitOnClose rest = some (inner, after) →
        evaluate_log ctx ('\x7b' :: rest).asString =
          evaluate_getstr ctx inner.asString ++ evaluate_log ctx after.asString) := by
  refine ⟨?_, ?_, ?_⟩
  · intro pre suf hsuf
    have hys : '\x7d' ∉ '\x7b' :: suf := by
      intro hm
      rcases List.mem_cons.mp hm with hm | hm
      · exact absurd hm (by decide)
      · exact hsuf hm
    rw [evaluate_log_eq_scanLog, evaluate_log_eq_scanLog]
    show (scanLog ctx (pre ++ '\x7b' :: suf)).asString = _
    rw [scanLog_append_no_close ctx pre ('\x7b' :: suf) hys]
    rfl
  · intro cs inner after h
    have := splitOnClose_some cs inner after h
    exact ⟨this.2, this.1⟩
  · intro rest inner after h
    rw [evaluate_log_eq_scanLog, evaluate_log_eq_scanLog]
    show (scanLog ctx ('\x7b' :: rest)).asString = _
    rw [scanLog_open ctx rest inner after h]
    rfl

/-! ## Claims about function resolution -/

/-- Claim C2 (amended): on a cache miss, `get_function` hands the freshly
built binding to the caller exactly when resolution bound a table pointer —
whether or not that table currently holds any breakpoint — and caches the
binding in every case. -/
theorem C2_binding_not_emptiness (dctx : DebugCtx) (st : breakpoint) (f : Int)
    (hf : dctx.funcId = some f) (hmiss : getA st.functions f = none) :
    (breakpoint.get_function st dctx).1 =
      (if (bp_function.ofCtx dctx st).1.bp.isSome then some (bp_function.ofCtx dctx st).1
       else none) ∧
    (breakpoint.get_function st dctx).2.functions =
      (bp_function.ofCtx dctx st).2.functions ++ [(f, (bp_function.ofCtx dctx st).1)] := by
  constructor <;> simp [breakpoint.get_function, hf, hmiss]

/-- Claim C2 is false as stated: resolving a function whose chunk converts
to client path "m.lua" binds it to a freshly created, empty table — zero
breakpoints exist anywhere — yet `get_function` answers the binding, not
null. -/
theorem C2_counterexample :
    (breakpoint.get_function breakpoint.init dctxResolved).1 ≠ none ∧
    stLookup (breakpoint.get_function breakpoint.init dctxResolved).2
      (SourceKey.path "m.lua") = [] ∧
    (breakpoint.get_function breakpoint.init dctxResolved).2.files = [("m.lua", [])] ∧
    (breakpoint.get_function breakpoint.init dctxResolved).2.memorys = [] := by
  refine ⟨by decide, rfl, rfl, rfl⟩

/-- Claim C3 (amended): when the function identity is unavailable,
resolution answers null and touches nothing; when the identity is known but
the source descriptor is unavailable, resolution answers null yet the
unbound binding IS cached, and every later call for the same identity
answers null from the cache without re-attempting resolution. -/
theorem C3_unbound_still_cached (dctx : DebugCtx) (st : breakpoint) :
    (dctx.funcId = none → breakpoint.get_function st dctx = (none, st)) ∧
    (∀ f, dctx.funcId = some f → getA st.functions f = none → dctx.source = none →
        (breakpoint.get_function st dctx).1 = none ∧
        (breakpoint.get_function st dctx).2 =
          { st with functions := st.functions ++ [(f, ⟨"", 0, none⟩)] }) ∧
    (∀ f func, dctx.funcId = some f → getA st.functions f = some func → func.bp = none →
        breakpoint.get_function st dctx = (none, st)) := by
  refine ⟨?_, ?_, ?_⟩
  · intro h
    simp [breakpoint.get_function, h]
  · intro f hf hmiss hsrc
    constructor <;> simp [breakpoint.get_function, hf, hmiss, bp_function.ofCtx, hsrc]
  · intro f func hf hfound hbp
    simp [breakpoint.get_function, hf, hfound, hbp]

/-- Claim C3 is false as stated: identity 7 is available but the source
descriptor is not; `get_function` answers null, yet the cache — empty
before the call — now holds the unbound binding for 7. -/
theorem C3_counterexample :
    (breakpoint.get_function breakpoint.init dctxNoSource).1 = none ∧
    (breakpoint.get_function breakpoint.init dctxNoSource).2.functions =
      [(7, ⟨"", 0, none⟩)] ∧
    [((7 : Int), (⟨"", 0, none⟩ : bp_function))] ≠ ([] : List (Int × bp_function)) := by
  refine ⟨rfl, rfl, by decide⟩

/-! ## Witnesses: the claim theorems applied at concrete inputs -/

/-- Witness for C7 at a concrete state and evaluators. -/
theorem C7_witness :
    (¬ ftGet stCond.fast_table 5 = 0) ∧
    getA ((getA stCond.files "foo.lua").getD []) 5 = some ⟨"x>1", "", "", 0⟩ ∧
    (¬ (("x>1" : String) = "" ∨ evaluate_isok ctxCondFalse "x>1" = true)) ∧
    breakpoint.has stCond ((getA stCond.files "foo.lua").getD []) 5 ctxCondFalse =
      ⟨false, (getA stCond.files "foo.lua").getD [], none⟩ ∧
    (("x>1" : String) = "" ∨ evaluate_isok ctxCondTrue "x>1" = true) ∧
    (breakpoint.has stCond ((getA stCond.files "foo.lua").getD []) 5 ctxCondTrue).src =
      setA ((getA stCond.files "foo.lua").getD []) 5 ⟨"x>1", "", "", 1⟩ :=
  ⟨by decide, by decide, by decide,
    (C7_condition_gates_hit stCond ((getA stCond.files "foo.lua").getD []) 5 ctxCondFalse
      ⟨"x>1", "", "", 0⟩ (by decide) (by decide)).1 (by decide),
    by decide,
    (C7_condition_gates_hit stCond ((getA stCond.files "foo.lua").getD []) 5 ctxCondTrue
      ⟨"x>1", "", "", 0⟩ (by decide) (by decide)).2 (by decide)⟩

/-- Witness for C8: the spec scenario with hitCondition ">=2" — first hit
counts to 1 and "return 1 >=2" is false, second hit counts to 2 and
"return 2 >=2" is true. -/
theorem C8_witness :
    (¬ ftGet stHit.fast_table 5 = 0) ∧
    getA [(5, (⟨"", ">=2", "", 0⟩ : bp))] 5 = some ⟨"", ">=2", "", 0⟩ ∧
    ((("" : String) = "" ∨ evaluate_isok ctxHitTwo "" = true)) ∧
    ((">=2" : String) ≠ "") ∧
    firstBoolTrue (ctxHitTwo.evaluate ("return " ++ (toString (0 + 1) ++ " " ++ ">=2"))) =
      false ∧
    breakpoint.has stHit [(5, ⟨"", ">=2", "", 0⟩)] 5 ctxHitTwo =
      ⟨false, [(5, ⟨"", ">=2", "", 1⟩)], none⟩ ∧
    firstBoolTrue (ctxHitTwo.evaluate ("return " ++ (toString (1 + 1) ++ " " ++ ">=2"))) =
      true ∧
    breakpoint.has stHit [(5, ⟨"", ">=2", "", 1⟩)] 5 ctxHitTwo =
      ⟨true, [(5, ⟨"", ">=2", "", 2⟩)], none⟩ :=
  ⟨by decide, by decide, by decide, by decide, by decide,
    (C8_hit_condition_text stHit [(5, ⟨"", ">=2", "", 0⟩)] 5 ctxHitTwo ⟨"", ">=2", "", 0⟩
      (by decide) (by decide) (by decide) (by decide)).1 (by decide),
    by decide,
    (C8_hit_condition_text stHit [(5, ⟨"", ">=2", "", 1⟩)] 5 ctxHitTwo ⟨"", ">=2", "", 1⟩
      (by decide) (by decide) (by decide) (by decide)).2 (by decide) (by decide)⟩

/-- Witness for C6: replacing the breakpoint at line 5 keeps hit count 2
while taking every other field from the new definition; adding at absent
line 7 inserts a fresh record with hit count 0. -/
theorem C6_witness :
    getA ((getA stHitCount2.files "foo.lua").getD []) 5 = some ⟨"", "", "", 2⟩ ∧
    (getA (stHitCount2.add "foo.lua" 5 ⟨some "c1", some "h1", some "L1"⟩).files "foo.lua" =
        some (setA ((getA stHitCount2.files "foo.lua").getD []) 5
          (bp.ofInfo ⟨some "c1", some "h1", some "L1"⟩ 2)) ∧
      (stHitCount2.add "foo.lua" 5 ⟨some "c1", some "h1", some "L1"⟩).fast_table =
        stHitCount2.fast_table) ∧
    getA ((getA stHitCount2.files "foo.lua").getD []) 7 = none ∧
    getA (stHitCount2.add "foo.lua" 7 ⟨some "c1", some "h1", some "L1"⟩).files "foo.lua" =
      some (((getA stHitCount2.files "foo.lua").getD []) ++
        [(7, bp.ofInfo ⟨some "c1", some "h1", some "L1"⟩ 0)]) ∧
    bp.ofInfo ⟨some "c1", some "h1", some "L1"⟩ 2 = ⟨"c1", "h1", "L1\n", 2⟩ :=
  ⟨by decide,
    (C6_add_replace_or_insert stHitCount2 "foo.lua" 5 ⟨some "c1", some "h1", some "L1"⟩).1
      ⟨"", "", "", 2⟩ (by decide),
    by decide,
    (C6_add_replace_or_insert stHitCount2 "foo.lua" 7 ⟨some "c1", some "h1", some "L1"⟩).2.1
      (by decide),
    by decide⟩

/-- Witness for C9 at two concrete sources, one per keyspace, both with a
breakpoint at line 3. -/
theorem C9_witness :
    (SourceKey.path "a.lua" ≠ SourceKey.ref 7) ∧
    srcHas (stLookup (applyOps opsTwoSources) (SourceKey.path "a.lua")) 3 = true ∧
    srcHas (stLookup (applyOps opsTwoSources) (SourceKey.ref 7)) 3 = true ∧
    stLookup (applyOp (applyOps opsTwoSources) (Op.clearSource (SourceKey.path "a.lua")))
      (SourceKey.path "a.lua") = [] ∧
    ftGet (applyOp (applyOps opsTwoSources)
        (Op.clearSource (SourceKey.path "a.lua"))).fast_table 3 =
      ftGet (applyOps opsTwoSources).fast_table 3 -
        (if srcHas (stLookup (applyOps opsTwoSources) (SourceKey.path "a.lua")) 3 then 1
         else 0) ∧
    stLookup (applyOp (applyOps opsTwoSources) (Op.clearSource (SourceKey.path "a.lua")))
      (SourceKey.ref 7) = stLookup (applyOps opsTwoSources) (SourceKey.ref 7) ∧
    breakpoint.has (applyOp (applyOps opsTwoSources) (Op.clearSource (SourceKey.path "a.lua")))
        (stLookup (applyOp (applyOps opsTwoSources) (Op.clearSource (SourceKey.path "a.lua")))
          (SourceKey.ref 7)) 3 ctxFail =
      breakpoint.has (applyOps opsTwoSources)
        (stLookup (applyOps opsTwoSources) (SourceKey.ref 7)) 3 ctxFail :=
  ⟨by decide, by decide, by decide,
    (C9_clear_source_isolation opsTwoSources (SourceKey.path "a.lua") (SourceKey.ref 7) 3
      ctxFail (by decide) (by decide) (by decide)).1,
    (C9_clear_source_isolation opsTwoSources (SourceKey.path "a.lua") (SourceKey.ref 7) 3
      ctxFail (by decide) (by decide) (by decide)).2.1 3,
    (C9_clear_source_isolation opsTwoSources (SourceKey.path "a.lua") (SourceKey.ref 7) 3
      ctxFail (by decide) (by decide) (by decide)).2.2.1,
    (C9_clear_source_isolation opsTwoSources (SourceKey.path "a.lua") (SourceKey.ref 7) 3
      ctxFail (by decide) (by decide) (by decide)).2.2.2⟩

/-- Witness for the amended C1 at the spec scenario: logMessage "x=…x…"
with x=42 emits exactly "x=42" plus the stored newline. -/
theorem C1_witness :
    (¬ ftGet stLogX.fast_table 5 = 0) ∧
    getA ((getA stLogX.files "foo.lua").getD []) 5 =
      some ⟨"", "", "x=\x7bx\x7d\n", 0⟩ ∧
    (("x=\x7bx\x7d\n" : String) = "x=\x7bx\x7d" ++ "\n") ∧
    breakpoint.has stLogX ((getA stLogX.files "foo.lua").getD []) 5 ctxX42 =
      ⟨false, setA ((getA stLogX.files "foo.lua").getD []) 5 ⟨"", "", "x=\x7bx\x7d\n", 1⟩,
        some ("stdout", evaluate_log ctxX42 "x=\x7bx\x7d" ++ "\n")⟩ :=
  ⟨by decide, by decide, by decide,
    C1_logpoint_emits_newline stLogX ((getA stLogX.files "foo.lua").getD []) 5 ctxX42
      ⟨"", "", "x=\x7bx\x7d\n", 0⟩ "x=\x7bx\x7d" (by decide) (by decide) (by decide)
      (by decide) (by decide)⟩

/-- Witness for the amended C4 at concrete inputs under the always-failing
evaluator. -/
theorem C4_witness :
    ctxFail.evaluate ("return tostring(" ++ "x" ++ ")") = none ∧
    evaluate_getstr ctxFail "x" = "" ∧
    ('\x7b' ∉ (['a'] : List Char)) ∧
    ('\x7d' ∉ (['x'] : List Char)) ∧
    evaluate_log ctxFail (['a'] ++ '\x7b' :: (['x'] ++ '\x7d' :: ['b'])).asString =
      (['a'] : List Char).asString ++
        (evaluate_getstr ctxFail (['x'] : List Char).asString ++
          evaluate_log ctxFail (['b'] : List Char).asString) ∧
    breakpoint.has stLogAB ((getA stLogAB.files "foo.lua").getD []) 5 ctxFail =
      ⟨false, setA ((getA stLogAB.files "foo.lua").getD []) 5 ⟨"", "", "a\x7bx\x7db\n", 1⟩,
        some ("stdout", evaluate_log ctxFail "a\x7bx\x7db\n")⟩ :=
  ⟨rfl,
    (C4_eval_failure_empty_segment ctxFail).1 "x" rfl,
    by decide, by decide,
    (C4_eval_failure_empty_segment ctxFail).2.1 ['a'] ['x'] ['b'] (by decide) (by decide),
    (C4_eval_failure_empty_segment ctxFail).2.2 stLogAB
      ((getA stLogAB.files "foo.lua").getD []) 5 ⟨"", "", "a\x7bx\x7db\n", 0⟩
      (by decide) (by decide) (by decide) (by decide) (by decide)⟩

/-- Witness for C10 at concrete message fragments. -/
theorem C10_witness :
    ('\x7d' ∉ (['b'] : List Char)) ∧
    evaluate_log ctxFail (['a'] ++ '\x7b' :: ['b']).asString =
      evaluate_log ctxFail (['a'] : List Char).asString ++
        ('\x7b' :: ['b']).asString ∧
    splitOnClose ['x', '\x7d', 'y'] = some (['x'], ['y']) ∧
    ('\x7d' ∉ (['x'] : List Char)) ∧
    (['x', '\x7d', 'y'] : List Char) = ['x'] ++ '\x7d' :: ['y'] ∧
    evaluate_log ctxFail ('\x7b' :: ['x', '\x7d']).asString =
      evaluate_getstr ctxFail (['x'] : List Char).asString ++
        evaluate_log ctxFail ([] : List Char).asString :=
  ⟨by decide,
    (C10_brace_scanning ctxFail).1 ['a'] ['b'] (by decide),
    by decide,
    ((C10_brace_scanning ctxFail).2.1 ['x', '\x7d', 'y'] ['x'] ['y'] (by decide)).1,
    ((C10_brace_scanning ctxFail).2.1 ['x', '\x7d', 'y'] ['x'] ['y'] (by decide)).2,
    (C10_brace_scanning ctxFail).2.2 ['x', '\x7d'] ['x'] [] (by decide)⟩

/-- Witness for the amended C2: resolving into an empty, freshly created
table still returns the binding and caches it. -/
theorem C2_witness :
    dctxResolved.funcId = some 1 ∧
    getA breakpoint.init.functions 1 = none ∧
    (breakpoint.get_function breakpoint.init dctxResolved).1 =
      (if (bp_function.ofCtx dctxResolved breakpoint.init).1.bp.isSome then
        some (bp_function.ofCtx dctxResolved breakpoint.init).1
       else none) ∧
    (breakpoint.get_function breakpoint.init dctxResolved).2.functions =
      (bp_function.ofCtx dctxResolved breakpoint.init).2.functions ++
        [(1, (bp_function.ofCtx dctxResolved breakpoint.init).1)] :=
  ⟨rfl, rfl,
    (C2_binding_not_emptiness dctxResolved breakpoint.init 1 rfl rfl).1,
    (C2_binding_not_emptiness dctxResolved breakpoint.init 1 rfl rfl).2⟩

/-- Witness for the amended C3: a missing identity touches nothing; a
missing source descriptor caches the unbound binding; a cached unbound
binding keeps answering null without re-resolution. -/
theorem C3_witness :
    dctxNoFunc.funcId = none ∧
    breakpoint.get_function breakpoint.init dctxNoFunc = (none, breakpoint.init) ∧
    dctxNoSource.funcId = some 7 ∧
    getA breakpoint.init.functions 7 = none ∧
    dctxNoSource.source = none ∧
    ((breakpoint.get_function breakpoint.init dctxNoSource).1 = none ∧
      (breakpoint.get_function breakpoint.init dctxNoSource).2 =
        { breakpoint.init with
          functions := breakpoint.init.functions ++ [(7, ⟨"", 0, none⟩)] }) ∧
    getA stCachedUnbound.functions 7 = some ⟨"", 0, none⟩ ∧
    breakpoint.get_function stCachedUnbound dctxNoSource = (none, stCachedUnbound) :=
  ⟨rfl,
    (C3_unbound_still_cached dctxNoFunc breakpoint.init).1 rfl,
    rfl, rfl, rfl,
    (C3_unbound_still_cached dctxNoSource breakpoint.init).2.1 7 rfl rfl rfl,
    by decide,
    (C3_unbound_still_cached dctxNoSource stCachedUnbound).2.2 7 ⟨"", 0, none⟩ rfl
      (by decide) rfl⟩
